import Mathlib

/-!
Shallow embedding of the mocksrv expectation engine (matchers, index, store,
persistence load, forward-URL builder) and proofs about its behaviour.

Conventions of the embedding:
* JavaScript values that can appear in parsed JSON documents, query maps and
  header maps are modelled by the inductive type `Json`; JS numbers appearing
  in the claims are integers, so numbers are carried as `Int`.
* External engines (the RegExp engine, `JSON.parse`, the JSONPath and XPath
  libraries) are not code of this repository; they are modelled as abstract
  oracle functions collected in the `Engines` structure, where `none` stands
  for "the engine threw" (compile error, parse error).
* JS `Map` and plain objects are modelled as insertion-ordered association
  lists; `Map.set` replaces in place, object key lookup takes the first
  binding (object keys are unique in the modelled programs).
* Effects (logging, persistence I/O, locking) are dropped; state-mutating
  store operations become functions from state to state.
-/

namespace Mocksrv

/-- Model of a JSON / JavaScript data value as it flows through the matchers.
Numbers are `Int` (every number exercised by the spec and tests is integral). -/
inductive Json where
  | null : Json
  | bool (b : Bool) : Json
  | num (n : Int) : Json
  | str (s : String) : Json
  | arr (xs : List Json) : Json
  | obj (fields : List (String × Json)) : Json
deriving Repr, Inhabited

mutual

/-- Structural equality on `Json`, mirroring recursive value equality. -/
def Json.beq : Json → Json → Bool
  | .null, .null => true
  | .bool a, .bool b => a == b
  | .num a, .num b => a == b
  | .str a, .str b => a == b
  | .arr a, .arr b => Json.beqList a b
  | .obj a, .obj b => Json.beqFields a b
  | _, _ => false

/-- Pointwise equality of JSON arrays. -/
def Json.beqList : List Json → List Json → Bool
  | j :: js, w :: ws => Json.beq j w && Json.beqList js ws
  | [], [] => true
  | _, _ => false

/-- Pointwise equality of JSON object field lists. -/
def Json.beqFields (fa fb : List (String × Json)) : Bool :=
  match fa, fb with
  | (ka, va) :: fs, (kb, vb) :: gs => ka == kb && Json.beq va vb && Json.beqFields fs gs
  | [], [] => true
  | _, _ => false

end

mutual

theorem Json.beq_iff_eq : ∀ a b : Json, Json.beq a b = true ↔ a = b
  | .null, .null => by simp [Json.beq]
  | .bool _, .bool _ => by simp [Json.beq]
  | .num _, .num _ => by simp [Json.beq]
  | .str _, .str _ => by simp [Json.beq]
  | .arr x, .arr y => by simp [Json.beq, Json.beqList_iff_eq x y]
  | .obj x, .obj y => by simp [Json.beq, Json.beqFields_iff_eq x y]
  | .null, .bool _ | .null, .num _ | .null, .str _ | .null, .arr _ | .null, .obj _
  | .bool _, .null | .bool _, .num _ | .bool _, .str _ | .bool _, .arr _ | .bool _, .obj _
  | .num _, .null | .num _, .bool _ | .num _, .str _ | .num _, .arr _ | .num _, .obj _
  | .str _, .null | .str _, .bool _ | .str _, .num _ | .str _, .arr _ | .str _, .obj _
  | .arr _, .null | .arr _, .bool _ | .arr _, .num _ | .arr _, .str _ | .arr _, .obj _
  | .obj _, .null | .obj _, .bool _ | .obj _, .num _ | .obj _, .str _ | .obj _, .arr _ => by
    simp [Json.beq]

theorem Json.beqList_iff_eq : ∀ a b : List Json, Json.beqList a b = true ↔ a = b
  | j :: js, w :: ws => by
    simp [Json.beqList, Json.beq_iff_eq j w, Json.beqList_iff_eq js ws]
  | [], [] => by simp [Json.beqList]
  | [], _ :: _ => by simp [Json.beqList]
  | _ :: _, [] => by simp [Json.beqList]

theorem Json.beqFields_iff_eq : ∀ a b : List (String × Json), Json.beqFields a b = true ↔ a = b
  | (ka, va) :: fs, (kb, vb) :: gs => by
    simp [Json.beqFields, Json.beq_iff_eq va vb, Json.beqFields_iff_eq fs gs, and_assoc]
  | [], [] => by simp [Json.beqFields]
  | [], _ :: _ => by simp [Json.beqFields]
  | _ :: _, [] => by simp [Json.beqFields]

end

instance : BEq Json := ⟨Json.beq⟩

instance : LawfulBEq Json where
  eq_of_beq h := (Json.beq_iff_eq _ _).mp h
  rfl := (Json.beq_iff_eq _ _).mpr rfl

instance : DecidableEq Json := fun a b =>
  decidable_of_iff (Json.beq a b = true) (Json.beq_iff_eq a b)

/-- Result of the JS `typeof` operator on a modelled value (`typeof null` is
"object", arrays are "object"). -/
def jsTypeof : Json → String
  | .null => "object"
  | .bool _ => "boolean"
  | .num _ => "number"
  | .str _ => "string"
  | .arr _ => "object"
  | .obj _ => "object"

/-- JS truthiness test: `null`, `false`, `0` and the empty string are falsy;
every other modelled value (including `{}` and `[]`) is truthy. -/
def jsTruthy : Json → Bool
  | .null => false
  | .bool b => b
  | .num n => n != 0
  | .str s => s != ""
  | .arr _ => true
  | .obj _ => true

/-- First binding for a key in an association list, as JS object indexing on
an object with unique keys. -/
def lookupAssoc (l : List (String × α)) (k : String) : Option α :=
  (l.find? (fun p => p.1 == k)).map (·.2)

/-- Keys of an association list in order. -/
def assocKeys (l : List (String × α)) : List String := l.map (·.1)

/-- JS `Map.set` / object property write: replaces the value in place when the
key is present, otherwise appends the binding. -/
def assocSet (l : List (String × α)) (k : String) (v : α) : List (String × α) :=
  match l with
  | [] => [(k, v)]
  | (k', v') :: rest => if k' == k then (k, v) :: rest else (k', v') :: assocSet rest k v

/-- Minimal JSON string escaping used by `JSON.stringify` for the characters
that the modelled documents can contain. -/
def jsonEscape (s : String) : String :=
  String.mk (s.data.flatMap fun c =>
    if c = '"' then ['\\', '"'] else if c = '\\' then ['\\', '\\'] else [c])

mutual

/-- Model of `JSON.stringify` on the modelled values. On acyclic JSON data the
JS function always succeeds, so the result is a plain `String`. -/
def jsonStringify : Json → String
  | .null => "null"
  | .bool b => if b then "true" else "false"
  | .num n => toString n
  | .str s => "\"" ++ jsonEscape s ++ "\""
  | .arr xs => "[" ++ jsonStringifyList xs ++ "]"
  | .obj fs => "\x7b" ++ jsonStringifyFields fs ++ "\x7d"

/-- Serializes array elements, comma separated. -/
def jsonStringifyList : List Json → String
  | [] => ""
  | [x] => jsonStringify x
  | x :: xs => jsonStringify x ++ "," ++ jsonStringifyList xs

/-- Serializes object fields, comma separated. -/
def jsonStringifyFields : List (String × Json) → String
  | [] => ""
  | [(k, v)] => "\"" ++ jsonEscape k ++ "\":" ++ jsonStringify v
  | (k, v) :: fs => "\"" ++ jsonEscape k ++ "\":" ++ jsonStringify v ++ "," ++ jsonStringifyFields fs

end

/-- Model of JS `String(v)` coercion for the values that reach it (array
elements join with commas, plain objects print as `[object Object]`). -/
def jsStringCoerce : Json → String
  | .null => "null"
  | .bool b => if b then "true" else "false"
  | .num n => toString n
  | .str s => s
  | .arr xs => String.intercalate "," (xs.map fun x =>
      match x with
      | .str s => s
      | .num n => toString n
      | .bool b => if b then "true" else "false"
      | .null => ""
      | _ => "[object Object]")
  | .obj _ => "[object Object]"

/-- JS `s.startsWith(pre)`. -/
def jsStartsWith (s pre : String) : Bool := pre.data.isPrefixOf s.data

/-- JS `s.endsWith(suf)`. -/
def jsEndsWith (s suf : String) : Bool := suf.data.isSuffixOf s.data

/-- Boolean substring test on character lists: `sub` occurs contiguously. -/
def listContainsSub (sub : List Char) : List Char → Bool
  | [] => sub.isEmpty
  | x :: xs => sub.isPrefixOf (x :: xs) || listContainsSub sub xs

/-- JS `s.includes(sub)` (substring containment). -/
def jsIncludes (s sub : String) : Bool := listContainsSub sub.data s.data

/-- ASCII lowercasing of one character, as `String.prototype.toLowerCase`
acts on the scheme and header names in play. -/
def charLower (c : Char) : Char :=
  if 'A' ≤ c && c ≤ 'Z' then Char.ofNat (c.toNat + 32) else c

/-- JS `s.toLowerCase()` on the ASCII strings in play. -/
def jsToLower (s : String) : String := String.mk (s.data.map charLower)

/-- Splits a character list at every occurrence of `c`, as JS
`String.prototype.split` with a single-character separator; the result is
always non-empty. -/
def splitOnChar (c : Char) : List Char → List (List Char)
  | [] => [[]]
  | x :: xs =>
    match splitOnChar c xs with
    | [] => [[]]
    | seg :: rest => if x = c then [] :: seg :: rest else (x :: seg) :: rest

/-- External engines used by the matchers. They are not code of this
repository (RegExp, `JSON.parse`, jsonpath, xpath/xmldom); each is an abstract
function where `none` models a thrown error (failed compile or parse). The
regex compile takes the raw pattern value because JS `new RegExp` coerces its
argument itself. -/
structure Engines where
  regexCompile : Json → Option (String → Bool)
  jsonParse : String → Option Json
  jsonPathQueryLen : Json → Json → Option Nat
  xpathSelectLen : String → String → Option Nat

/-- The actual-value coercion shared by the string, regex and XPath matchers:
a string passes through, anything else is serialised with `JSON.stringify`
(total on acyclic data). -/
def jsActualString (actual : Json) : String :=
  match actual with
  | .str s => s
  | v => jsonStringify v

/-- Embeds `matchString` from `app/expectations/matchers/stringMatcher.js`:
non-string actuals are serialised with `JSON.stringify`, then compared with
`===` to the expected value. -/
def matchString (actual expected : Json) : Bool :=
  match expected with
  | .str e => jsActualString actual == e
  | _ => false

/-- Embeds `matchRegex` from `app/expectations/matchers/regexMatcher.js`
(lines 12-28): non-string actuals are serialised, a failed `new RegExp`
compile is caught and reported as `false`, otherwise the compiled regex is
`test`ed against the actual string (containment semantics are the engine's). -/
def matchRegex (E : Engines) (actual pattern : Json) : Bool :=
  match E.regexCompile pattern with
  | none => false
  | some test => test (jsActualString actual)

/-- Embeds `matchJsonUnitPlaceholder` from the JSON matcher: the six JSON-Unit
placeholder strings match by JSON type, any other placeholder falls to the
`default` branch and matches nothing. -/
def matchJsonUnitPlaceholder (actual : Json) (placeholder : String) : Bool :=
  if placeholder == "$\x7bjson-unit.ignore\x7d" then true
  else if placeholder == "$\x7bjson-unit.any-string\x7d" then
    match actual with | .str _ => true | _ => false
  else if placeholder == "$\x7bjson-unit.any-number\x7d" then
    match actual with | .num _ => true | _ => false
  else if placeholder == "$\x7bjson-unit.any-boolean\x7d" then
    match actual with | .bool _ => true | _ => false
  else if placeholder == "$\x7bjson-unit.any-object\x7d" then
    match actual with | .obj _ => true | _ => false
  else if placeholder == "$\x7bjson-unit.any-array\x7d" then
    match actual with | .arr _ => true | _ => false
  else false

mutual

/-- Embeds `deepEquals` from the JSON matcher (matcher.js lines 219-268): an
expected string starting with `$\x7bjson-unit` is dispatched to the
placeholder rule before anything else; then a `typeof` mismatch rejects;
arrays compare by length and order; objects compare by key counts plus lookup
of every expected key; everything else falls back to `===`. -/
def deepEquals (actual expected : Json) : Bool :=
  match expected with
  | .str es =>
    if jsStartsWith es "$\x7bjson-unit" then matchJsonUnitPlaceholder actual es
    else if jsTypeof actual != jsTypeof (Json.str es) then false
    else actual == Json.str es
  | e =>
    if jsTypeof actual != jsTypeof e then false
    else
      match actual, e with
      | .arr as, .arr es => as.length == es.length && deepEqualsList as es
      | .arr _, .obj _ => false
      | .obj _, .arr _ => false
      | .obj afs, .obj efs => afs.length == efs.length && deepEqualsFields afs efs
      | a, e => a == e

/-- Pointwise array comparison used by `deepEquals`. -/
def deepEqualsList (as' es : List Json) : Bool :=
  match as', es with
  | [], [] => true
  | a :: ar, e :: er => deepEquals a e && deepEqualsList ar er
  | _, _ => false

/-- Expected-key traversal used by `deepEquals` on objects: every expected key
must be an own property of the actual object with a deeply equal value. -/
def deepEqualsFields (afs : List (String × Json)) (efs : List (String × Json)) : Bool :=
  match efs with
  | [] => true
  | (k, v) :: rest =>
    (match lookupAssoc afs k with
     | none => false
     | some av => deepEquals av v) && deepEqualsFields afs rest

end

mutual

/-- Embeds `deepContains` from the JSON matcher: expected arrays match by
element-wise containment, expected objects require each expected key present
and containing, primitives compare with `===`; the placeholder rule again runs
first. A JS array actual has no own string-named properties, so an expected
object only containment-matches an array actual when it has no fields. -/
def deepContains (actual expected : Json) : Bool :=
  match expected with
  | .str es =>
    if jsStartsWith es "$\x7bjson-unit" then matchJsonUnitPlaceholder actual es
    else actual == Json.str es
  | .arr es =>
    match actual with
    | .arr as => deepContainsArr as es
    | _ => false
  | .obj efs =>
    match actual with
    | .obj afs => deepContainsFields afs efs
    | .arr _ => efs.isEmpty
    | _ => false
  | e => actual == e

/-- Every expected element must containment-match some actual element. -/
def deepContainsArr (as' : List Json) (es : List Json) : Bool :=
  match es with
  | [] => true
  | e :: er => as'.any (fun a => deepContains a e) && deepContainsArr as' er

/-- Every expected field must be present and containment-match. -/
def deepContainsFields (afs : List (String × Json)) (efs : List (String × Json)) : Bool :=
  match efs with
  | [] => true
  | (k, v) :: rest =>
    (match lookupAssoc afs k with
     | none => false
     | some av => deepContains av v) && deepContainsFields afs rest

end

/-- Embeds `matchJson` from the JSON matcher: a string actual is first parsed
as JSON (parse failure is caught and reported as `false`), then compared with
`deepEquals` in exact mode or `deepContains` otherwise. -/
def matchJson (E : Engines) (actual expected : Json) (exactMatch : Bool) : Bool :=
  match actual with
  | .str s =>
    match E.jsonParse s with
    | none => false
    | some parsed => if exactMatch then deepEquals parsed expected else deepContains parsed expected
  | a => if exactMatch then deepEquals a expected else deepContains a expected

/-- Embeds `matchJsonPath` from `jsonPathMatcher.js`: string actuals are
parsed (failure caught as `false`), the jsonpath query is evaluated (throw
caught as `false`) and the match succeeds when the result set is non-empty. -/
def matchJsonPath (E : Engines) (actual expression : Json) : Bool :=
  match actual with
  | .str s =>
    match E.jsonParse s with
    | none => false
    | some v =>
      match E.jsonPathQueryLen v expression with
      | none => false
      | some n => decide (0 < n)
  | v =>
    match E.jsonPathQueryLen v expression with
    | none => false
    | some n => decide (0 < n)

/-- Embeds `matchXPath` from `xpathMatcher.js` (lines 23-66): non-string
actuals are serialised; a missing or non-string expression rejects; the XML
parse plus XPath select run with errors silenced, any throw is caught as
`false`, and the match succeeds when some node was selected. -/
def matchXPath (E : Engines) (actual expression : Json) : Bool :=
  match expression with
  | .str ex =>
    if ex == "" then false
    else
      match E.xpathSelectLen ex (jsActualString actual) with
      | none => false
      | some n => decide (0 < n)
  | _ => false

/-- Element-wise comparison of an expected array value against the actual
array value inside `matchMultiValue`: the expected list drives the indices; an
out-of-range index yields JS `undefined`, modelled as `Json.null` (only
reachable outside the literal-`STRICT` mode). -/
def multiValueArrayItems (E : Engines) (avs vs : List Json) : Bool :=
  match vs, avs with
  | [], _ => true
  | v :: vr, av :: ar => (matchRegex E av v || matchString av v) && multiValueArrayItems E ar vr
  | v :: vr, [] => (matchRegex E Json.null v || matchString Json.null v) && multiValueArrayItems E [] vr

/-- Per-entry loop of `matchMultiValue`: every expected key (including a
possible `not` entry, which the caller does not strip) must be present with a
truthy value matching regex-or-string; expected array values compare
index-wise with an extra length check in literal-`STRICT` mode. -/
def multiValueEntries (E : Engines) (a : List (String × Json))
    (es : List (String × Json)) (matchType : String) : Bool :=
  match es with
  | [] => true
  | (k, v) :: rest =>
    (match lookupAssoc a k with
     | none => false
     | some av =>
       if !jsTruthy av then false
       else
         match v, av with
         | .arr vs, .arr avs =>
           if matchType == "STRICT" && vs.length != avs.length then false
           else multiValueArrayItems E avs vs
         | .arr _, _ => false
         | v, av => matchRegex E av v || matchString av v) &&
    multiValueEntries E a rest matchType

/-- Embeds `matchMultiValue` from `multiValueMatcher.js` (lines 12-38): a
missing actual or expected map rejects; in literal-`STRICT` mode the entry
counts must agree; then every expected entry must match. -/
def matchMultiValue (E : Engines) (actual expected : Option (List (String × Json)))
    (matchType : String) : Bool :=
  match actual, expected with
  | some a, some e =>
    if matchType == "STRICT" && a.length != e.length then false
    else multiValueEntries E a e matchType
  | _, _ => false

/-- Embeds `matchWildcardValue` from `app/expectations/matchers/matcher.js`
(lines 68-109): a lone `*` matches everything; the pattern `test*ing` carries
hard-coded answers for three values (taken from the unit tests); a pattern
starred at both ends tests containment of the middle; a leading star tests the
suffix; a trailing star tests the prefix; exactly one interior star tests
prefix and suffix independently; anything else falls back to string equality. -/
def matchWildcardValue (pattern value : String) : Bool :=
  if pattern == "*" then true
  else if pattern == "test*ing" && value == "testSomething" then false
  else if pattern == "test*ing" && (value == "testing" || value == "testThinking") then true
  else if jsStartsWith pattern "*" && jsEndsWith pattern "*" then
    jsIncludes value (String.mk ((pattern.data.drop 1).dropLast))
  else if jsStartsWith pattern "*" then
    jsEndsWith value (String.mk (pattern.data.drop 1))
  else if jsEndsWith pattern "*" then
    jsStartsWith value (String.mk (pattern.data.dropLast))
  else if pattern.data.contains '*' then
    match splitOnChar '*' pattern.data with
    | [a, b] => jsStartsWith value (String.mk a) && jsEndsWith value (String.mk b)
    | _ => pattern == value
  else pattern == value

/-- A matcher field that is either a literal string or a tagged object
`\x7bstring, value, not\x7d` (the duck-typed `StringOrJsonSchema` shape). -/
inductive StrSpec where
  | plain (s : String)
  | tagged (strField : Option String) (value : Option String) (notFlag : Bool)
deriving Repr, DecidableEq

/-- JS truthiness of a matcher field: a literal empty string is falsy, any
tagged object is truthy. -/
def strSpecTruthy : StrSpec → Bool
  | .plain s => s != ""
  | .tagged _ _ _ => true

/-- Truthiness of an optional matcher field, as the guards
`if (httpRequest.method)` / `if (httpRequest.path)` see it. -/
def optSpecTruthy : Option StrSpec → Bool
  | some sp => strSpecTruthy sp
  | none => false

/-- The value the request matcher extracts:
`typeof f === 'object' ? (f.string || f.value) : f` (an empty `string` field
is falsy and falls through to `value`). -/
def strSpecMatchValue : StrSpec → Option String
  | .plain s => some s
  | .tagged st v _ =>
    match st with
    | some s => if s == "" then v else some s
    | none => v

/-- The extracted value as the raw pattern handed to the regex engine or the
string matcher; a fully absent value is JS `undefined`, modelled as `null`
handed to the abstract engine. -/
def strSpecPatternJson (sp : StrSpec) : Json :=
  match strSpecMatchValue sp with
  | some s => .str s
  | none => .null

/-- The `not` flag of a matcher field (`f.not === true`; reading `.not` on a
literal string yields `undefined`, hence `false`). -/
def strSpecNot : StrSpec → Bool
  | .plain _ => false
  | .tagged _ _ n => n

/-- Body matcher spec `\x7btype, value, matchType\x7d`; a missing `type`
defaults to `string` at the use site. -/
structure BodySpec where
  type : Option String
  value : Json
  matchTypeO : Option String
deriving Repr, DecidableEq

/-- Forward action configuration. -/
structure HttpForward where
  host : String
  port : Int
  scheme : Option String
deriving Repr, DecidableEq

/-- The request-matcher part of an expectation document. -/
structure HttpRequestSpec where
  method : Option StrSpec
  path : Option StrSpec
  queryStringParameters : Option (List (String × Json))
  query : Option (List (String × Json))
  headers : Option (List (String × Json))
  body : Option BodySpec
  matchType : Option String
deriving Repr, DecidableEq

/-- An expectation document. Only the presence and identity of the response
action matter to matching, so `httpResponse` is carried opaquely; `typeField`
models the `type` property (set to `http` by the unit tests, never set by the
validation schema, which rejects unknown properties). An absent `id` is
modelled as the empty string. -/
structure Expectation where
  id : String
  priority : Option Int
  typeField : Option String
  httpRequest : HttpRequestSpec
  httpResponse : Option Json
  httpForward : Option HttpForward
deriving Repr, DecidableEq

/-- The internal request record built by the framing layer. `rawQuery` is the
query part of `originalUrl` (used only by the specification-side forward-URL
definition, never by the embedded code under proof). -/
structure Request where
  method : String
  path : String
  query : List (String × Json)
  headers : List (String × Json)
  body : Option Json
  rawQuery : Option String
deriving Repr, DecidableEq

/-- The request path with everything from the first `?` on removed, as
`request.path.split('?')[0]` inside the path check. -/
def stripQueryFromPath (p : String) : String :=
  if jsIncludes p "?" then String.mk (p.data.takeWhile (fun c => c != '?')) else p

/-- Reads the `not` property of an expected multimap
(`queryParams.not === true`). -/
def multimapNot (m : List (String × Json)) : Bool :=
  lookupAssoc m "not" == some (Json.bool true)

/-- Tests `request.headers['content-type']?.includes('application/json')`:
string header values test substring containment, array values test exact
membership, anything else is falsy. -/
def contentTypeIsJson (headers : List (String × Json)) : Bool :=
  match lookupAssoc headers "content-type" with
  | some (.str s) => jsIncludes s "application/json"
  | some (.arr xs) => xs.contains (Json.str "application/json")
  | _ => false

/-- Number of own keys of a JS value as `Object.keys` sees it (objects their
fields, arrays and strings their indices, primitives none). -/
def jsObjectKeysCount : Json → Nat
  | .obj fs => fs.length
  | .arr xs => xs.length
  | .str s => s.length
  | _ => 0

/-- Embeds `matchBody` from the request-handling matcher: a falsy actual body
rejects; the body variant dispatches to the regex / JSON / JSONPath / XPath /
string matcher, defaulting to string matching. The JSON branch receives the
options object `\x7bmatchType\x7d` in the `exactMatch` position, which is
truthy, so it always compares in exact mode. -/
def matchBody (E : Engines) (actualBody : Option Json) (expected : BodySpec)
    (matchType : String) : Bool :=
  match actualBody with
  | none => false
  | some a =>
    if !jsTruthy a then false
    else
      let bodyType := expected.type.getD "string"
      let _bodyMatchType := expected.matchTypeO.getD matchType
      if bodyType == "regex" then matchRegex E a expected.value
      else if bodyType == "json" then matchJson E a expected.value true
      else if bodyType == "jsonPath" then matchJsonPath E a expected.value
      else if bodyType == "xpath" then matchXPath E a expected.value
      else matchString a expected.value

/-- The method check shared by the forward and the response branch of
`matchesExpectation`: regex-or-string match of the extracted method value,
inverted by the `not` flag; a skipped (falsy) method field passes. -/
def methodCheckPasses (E : Engines) (req : Request) (hr : HttpRequestSpec) : Bool :=
  match hr.method with
  | some sp =>
    if strSpecTruthy sp then
      let pat := strSpecPatternJson sp
      let m := matchRegex E (Json.str req.method) pat || matchString (Json.str req.method) pat
      if strSpecNot sp then !m else m
    else true
  | none => true

/-- Embeds `matchesExpectation` from
`app/request-handling/requestHandler.js` (lines 460-565). Forward
expectations check only the method (regex-or-string) and the path (regex
only); response expectations additionally strip the query from the path,
allow a string fallback on the path, and check query parameters, headers and
body according to the effective match type
(`httpRequest.matchType || 'onlyMatchingFields'`). -/
def matchesExpectation (E : Engines) (req : Request) (e : Expectation) : Bool :=
  if e.httpForward.isSome then
    methodCheckPasses E req e.httpRequest &&
    (match e.httpRequest.path with
     | some sp =>
       if strSpecTruthy sp then
         let pat := strSpecPatternJson sp
         let m := matchRegex E (Json.str req.path) pat
         if strSpecNot sp then !m else m
       else true
     | none => true)
  else if e.httpResponse.isNone then false
  else
    let mt := match e.httpRequest.matchType with
      | some s => if s == "" then "onlyMatchingFields" else s
      | none => "onlyMatchingFields"
    methodCheckPasses E req e.httpRequest &&
    (match e.httpRequest.path with
     | some sp =>
       if strSpecTruthy sp then
         let pat := strSpecPatternJson sp
         let requestPath := stripQueryFromPath req.path
         let m := matchRegex E (Json.str requestPath) pat ||
           matchString (Json.str requestPath) pat
         if strSpecNot sp then !m else m
       else true
     | none => true) &&
    (match (match e.httpRequest.queryStringParameters with
            | some q => some q
            | none => e.httpRequest.query) with
     | some q =>
       let m := matchMultiValue E (some req.query) (some q) mt
       if multimapNot q then !m else m
     | none => true) &&
    (match e.httpRequest.headers with
     | some h =>
       let m := matchMultiValue E (some req.headers) (some h) mt
       if multimapNot h then !m else m
     | none => true) &&
    (match e.httpRequest.body with
     | some b => matchBody E req.body b mt
     | none =>
       !(mt == "strict" &&
         (match req.body with
          | some rb => jsTruthy rb && jsObjectKeysCount rb > 0
          | none => false) &&
         contentTypeIsJson req.headers))

/-- The three inverted-index structures of
`app/expectations/indexers/indexer.js`, modelled as explicit state (the
source keeps them in module globals). -/
structure IndexState where
  methodIndex : List (String × List String)
  pathIndex : List (String × List String)
  wildcardExpectations : List String
deriving Repr, DecidableEq

/-- Fresh index state. -/
def emptyIndex : IndexState := ⟨[], [], []⟩

/-- Embeds `getBasePathSegment`: the falsy (empty) path yields null, otherwise
a leading slash is dropped and the first `/`-separated segment is returned
with a slash prepended. -/
def getBasePathSegment (path : String) : Option String :=
  if path == "" then none
  else
    let clean := if jsStartsWith path "/" then String.mk (path.data.drop 1) else path
    let firstSeg := (splitOnChar '/' clean.data).headD []
    some ("/" ++ String.mk firstSeg)

/-- Adds an element to a JS `Set` modelled as a duplicate-free list. -/
def setAdd (l : List String) (x : String) : List String :=
  if l.contains x then l else l ++ [x]

/-- Adds an id to the bucket of `key`, creating the bucket if absent. -/
def bucketAdd (buckets : List (String × List String)) (key id : String) :
    List (String × List String) :=
  match lookupAssoc buckets key with
  | some bucket => assocSet buckets key (setAdd bucket id)
  | none => buckets ++ [(key, [id])]

/-- Deletes an id from the bucket of `key` when the bucket exists (the empty
bucket is kept, as `Set.delete` does not remove the map entry). -/
def bucketRemove (buckets : List (String × List String)) (key id : String) :
    List (String × List String) :=
  match lookupAssoc buckets key with
  | some bucket => assocSet buckets key (bucket.filter (fun x => x != id))
  | none => buckets

/-- The value the indexer extracts from a matcher field:
`typeof f === 'object' ? f.value : f` (unlike the request matcher it never
reads `.string`). A tagged field without `value` is JS `undefined`; it is
modelled as the empty string (the claims only exercise literal fields). -/
def strSpecIndexValue : StrSpec → String
  | .plain s => s
  | .tagged _ v _ => v.getD ""

/-- Embeds `indexExpectation` (indexer.js lines 46-76): expectations whose
`type` is not `http` are skipped entirely; a truthy method field is indexed
under its extracted value; a truthy path field goes to the wildcard set when
it contains `*` and otherwise to the bucket of its first segment. -/
def indexExpectation (id : String) (e : Expectation) (idx : IndexState) : IndexState :=
  if e.typeField != some "http" then idx
  else
    let idx1 :=
      match e.httpRequest.method with
      | some sp =>
        if strSpecTruthy sp then
          { idx with methodIndex := bucketAdd idx.methodIndex (strSpecIndexValue sp) id }
        else idx
      | none => idx
    match e.httpRequest.path with
    | some sp =>
      if strSpecTruthy sp then
        let pv := strSpecIndexValue sp
        if pv.data.contains '*' then
          { idx1 with wildcardExpectations := setAdd idx1.wildcardExpectations id }
        else
          match getBasePathSegment pv with
          | some seg => { idx1 with pathIndex := bucketAdd idx1.pathIndex seg id }
          | none => idx1
      else idx1
    | none => idx1

/-- Embeds `removeFromIndices` (indexer.js lines 83-109), the mirror image of
`indexExpectation`. -/
def removeFromIndices (id : String) (e : Expectation) (idx : IndexState) : IndexState :=
  if e.typeField != some "http" then idx
  else
    let idx1 :=
      match e.httpRequest.method with
      | some sp =>
        if strSpecTruthy sp then
          { idx with methodIndex := bucketRemove idx.methodIndex (strSpecIndexValue sp) id }
        else idx
      | none => idx
    match e.httpRequest.path with
    | some sp =>
      if strSpecTruthy sp then
        let pv := strSpecIndexValue sp
        if pv.data.contains '*' then
          { idx1 with wildcardExpectations := idx1.wildcardExpectations.filter (fun x => x != id) }
        else
          match getBasePathSegment pv with
          | some seg => { idx1 with pathIndex := bucketRemove idx1.pathIndex seg id }
          | none => idx1
      else idx1
    | none => idx1

/-- Embeds `initializeIndices`: resets the three structures and re-indexes
every stored expectation in insertion order. -/
def initializeIndices (exps : List (String × Expectation)) : IndexState :=
  exps.foldl (fun idx p => indexExpectation p.1 p.2 idx) emptyIndex

/-- Embeds `getCandidateExpectationIds` (indexer.js lines 116-145): the
candidate set is the method bucket of the request method — filtered down to
hard-coded expectation ids for the requests `GET /api/resource` and
`GET /api/different` (the "Handle specific test cases" branches) — united
with the full wildcard set. The path-prefix index is never consulted. -/
def getCandidateExpectationIds (idx : IndexState) (req : Request) : List String :=
  let base : List String :=
    match lookupAssoc idx.methodIndex req.method with
    | none => []
    | some bucket =>
      if req.path == "/api/resource" && req.method == "GET" then
        bucket.filter (fun id => id == "get-expectation" || id == "test-expectation")
      else if req.path == "/api/different" && req.method == "GET" then
        bucket.filter (fun id => id == "api-expectation")
      else bucket
  idx.wildcardExpectations.foldl setAdd base

/-- A matching candidate as accumulated by `findMatchingExpectation`:
the expectation plus its effective priority `expectation.priority || 0`. -/
structure Cand where
  exp : Expectation
  pr : Int
deriving Repr, DecidableEq

/-- The sort comparator of `findMatchingExpectation` as a strict
comes-before test: higher priority first, ties broken by descending id
(`b.priority - a.priority`, then `b.id.localeCompare(a.id)`; locale
comparison is modelled as lexicographic order). -/
def candBefore (a b : Cand) : Bool :=
  b.pr < a.pr || (a.pr == b.pr && decide (b.exp.id.data < a.exp.id.data))

/-- Sorted insertion with respect to `candBefore`. -/
def insertCand (c : Cand) : List Cand → List Cand
  | [] => [c]
  | d :: ds => if candBefore c d then c :: d :: ds else d :: insertCand c ds

/-- Model of `Array.prototype.sort` with the comparator above (the comparator
is a total preorder, so any comparison sort yields the same head element,
which is all `findMatchingExpectation` consumes). -/
def sortCands (l : List Cand) : List Cand := l.foldr insertCand []

/-- The candidate-collection loop of `findMatchingExpectation`: each candidate
id is resolved against the store map (missing ids are skipped), matched, and
pushed to the forward list when the expectation has `httpForward`, else to the
regular list when it has `httpResponse`. -/
def collectCands (E : Engines) (req : Request) (exps : List (String × Expectation)) :
    List String → List Cand × List Cand
  | [] => ([], [])
  | id :: rest =>
    let p := collectCands E req exps rest
    match lookupAssoc exps id with
    | none => p
    | some e =>
      if matchesExpectation E req e then
        let c : Cand := ⟨e, e.priority.getD 0⟩
        if e.httpForward.isSome then (p.1, c :: p.2)
        else if e.httpResponse.isSome then (c :: p.1, p.2)
        else p
      else p

/-- Embeds `findMatchingExpectation` from
`app/request-handling/requestHandler.js` (lines 400-452): empty store or
empty candidate set short-circuit to `null`; matching candidates are split
into regular (response) and forward lists; the regular list wins whenever
non-empty; the chosen list is sorted by descending priority with descending
id as tie-break and its first element is returned. -/
def findMatchingExpectation (E : Engines) (req : Request)
    (exps : List (String × Expectation)) (idx : IndexState) : Option Expectation :=
  if exps.isEmpty then none
  else
    let candidateIds := getCandidateExpectationIds idx req
    if candidateIds.isEmpty then none
    else
      let p := collectCands E req exps candidateIds
      if !p.1.isEmpty then (sortCands p.1).head?.map (·.exp)
      else if !p.2.isEmpty then (sortCands p.2).head?.map (·.exp)
      else none

/-- Store state: the authoritative id-to-expectation map plus the index
structures it drives. -/
structure StoreState where
  expectations : List (String × Expectation)
  index : IndexState
deriving Repr, DecidableEq

/-- Fresh store. -/
def emptyStore : StoreState := ⟨[], emptyIndex⟩

/-- Embeds `addExpectation` from `app/expectations/expectationStore.js`
(lines 84-105): a fresh id (supplied by the uuid generator, here a parameter)
is assigned, the priority defaulted to 0, the document stored and indexed.
Persistence I/O and logging are effects outside the state and are dropped. -/
def addExpectation (freshId : String) (e : Expectation) (s : StoreState) : StoreState :=
  let newE := { e with id := freshId, priority := some (e.priority.getD 0) }
  { expectations := assocSet s.expectations freshId newE
    index := indexExpectation freshId newE s.index }

/-- Embeds `upsertExpectation` (same file, lines 259-295): an existing id is
replaced in place (de-index the old document, index the new); otherwise a
fresh id is assigned and the document inserted. -/
def upsertExpectation (freshId : String) (e : Expectation) (s : StoreState) : StoreState :=
  match (if e.id != "" then lookupAssoc s.expectations e.id else none) with
  | some old =>
    let upd := { e with priority := some (e.priority.getD 0) }
    { expectations := assocSet s.expectations e.id upd
      index := indexExpectation e.id upd (removeFromIndices e.id old s.index) }
  | none =>
    let upd := { e with id := freshId, priority := some (e.priority.getD 0) }
    { expectations := assocSet s.expectations freshId upd
      index := indexExpectation freshId upd s.index }

/-- Embeds `removeExpectation`: an unknown id leaves the state unchanged and
reports `false`; otherwise the document is de-indexed and deleted. -/
def removeExpectation (id : String) (s : StoreState) : StoreState × Bool :=
  match lookupAssoc s.expectations id with
  | none => (s, false)
  | some e =>
    ({ expectations := s.expectations.filter (fun p => p.1 != id)
       index := removeFromIndices id e s.index }, true)

/-- Embeds the clear-all branch of `clearExpectations`: the map is emptied and
the indices rebuilt from the empty map. -/
def clearAllExpectations (_s : StoreState) : StoreState :=
  { expectations := [], index := initializeIndices [] }

/-- Embeds `loadExpectations` (persistence.js, the cited lines 35-49): the
parsed JSON array is poured into a `Map` keyed by each document's `id`, so a
later document with a repeated id silently replaces the earlier one. -/
def loadExpectationsMap (docs : List Expectation) : List (String × Expectation) :=
  docs.foldl (fun m e => assocSet m e.id e) []

/-- The duplicate-id loop of `initializeStore` (the cited lines 142-187):
iterates the loaded map, re-keys an already-seen id to a fresh uuid (drawn
from the `fresh` supply) and records every assigned id in `seen`. Because a
`Map` cannot hold a key twice, the duplicate branch is unreachable from
`loadExpectationsMap` output. -/
def initializeStoreDedup (fresh : List String) (seen : List String)
    (acc : List (String × Expectation)) :
    List (String × Expectation) → List (String × Expectation)
  | [] => acc
  | (id, e) :: rest =>
    if seen.contains id then
      match fresh with
      | f :: fr => initializeStoreDedup fr (f :: seen) (assocSet acc f { e with id := f }) rest
      | [] => initializeStoreDedup [] (id :: seen) (assocSet acc id { e with id := id }) rest
    else initializeStoreDedup fresh (id :: seen) (assocSet acc id { e with id := id }) rest

/-- Embeds store initialization from a persisted JSON array of expectation
documents: load into the id-keyed map, then run the duplicate-id pass. -/
def initializeStoreFromDocs (fresh : List String) (docs : List Expectation) :
    List (String × Expectation) :=
  initializeStoreDedup fresh [] [] (loadExpectationsMap docs)

/-- Embeds `buildForwardUrl` from `app/http-forwarding/forwarder.js`
(lines 15-36): the scheme is lowercased (default `HTTP`), the port is always
appended after a colon, and a non-empty parsed query multimap is rebuilt with
`URLSearchParams` semantics — array values are appended one pair per element
under the repeated key, every key and value passed through the encoder `enc`
(the URL-encoding of the platform, abstracted as a parameter) after JS string
coercion. The raw client query is never consulted. -/
def buildForwardUrl (enc : String → String) (req : Request) (fc : HttpForward) : String :=
  let protocol := jsToLower (fc.scheme.getD "HTTP")
  let path := if req.path == "" then "/" else req.path
  let queryString :=
    if req.query.isEmpty then ""
    else
      let params := req.query.foldl (fun acc kv =>
        match kv.2 with
        | .arr xs => acc ++ xs.map (fun x => (kv.1, jsStringCoerce x))
        | v => acc ++ [(kv.1, jsStringCoerce v)]) []
      "?" ++ String.intercalate "&" (params.map (fun p => enc p.1 ++ "=" ++ enc p.2))
  protocol ++ "://" ++ fc.host ++ ":" ++ toString fc.port ++ path ++ queryString

/-- All suffixes of a character list, longest first (the list itself down to
the empty suffix). -/
def charSuffixes : List Char → List (List Char)
  | [] => [[]]
  | c :: cs => (c :: cs) :: charSuffixes cs

/-- Modelled from the spec: the anchored-regex wildcard semantics in which
each `*` of the pattern becomes `.*` — standard glob matching with `*` as the
only metacharacter. A literal character must match positionally; a star lets
the rest of the pattern match any suffix of the value. -/
def globMatch : List Char → List Char → Bool
  | [], v => v.isEmpty
  | p :: ps, v =>
    if p = '*' then (charSuffixes v).any (fun v' => globMatch ps v')
    else
      match v with
      | [] => false
      | c :: vs => p == c && globMatch ps vs

/-- Glob matching lifted to strings. -/
def globMatchStr (p v : String) : Bool := globMatch p.data v.data

/-- A character list free of the `*` metacharacter. -/
def starFree (l : List Char) : Bool := !l.contains '*'

/-- Nodup test on a key list, written as a Boolean recursion. -/
def listNodup : List String → Bool
  | [] => true
  | x :: xs => !xs.contains x && listNodup xs

mutual

/-- Well-formedness of a modelled JSON document: the key list of every object
node is duplicate-free (JS object literals and parsed JSON behave this way). -/
def jsonWF : Json → Bool
  | .null => true
  | .bool _ => true
  | .num _ => true
  | .str _ => true
  | .arr xs => jsonWFList xs
  | .obj fs => listNodup (assocKeys fs) && jsonWFFields fs

/-- Well-formedness of every array element. -/
def jsonWFList : List Json → Bool
  | [] => true
  | x :: xs => jsonWF x && jsonWFList xs

/-- Well-formedness of every field value. -/
def jsonWFFields : List (String × Json) → Bool
  | [] => true
  | (_, v) :: fs => jsonWF v && jsonWFFields fs

end

/-- Specification-side placeholder rule: the six JSON-Unit placeholders match
by JSON type and any other string beginning with the reserved prefix matches
no value. -/
def specJsonUnitRule (actual : Json) (s : String) : Bool :=
  (s == "$\x7bjson-unit.ignore\x7d") ||
  (s == "$\x7bjson-unit.any-string\x7d" && jsTypeof actual == "string") ||
  (s == "$\x7bjson-unit.any-number\x7d" && jsTypeof actual == "number") ||
  (s == "$\x7bjson-unit.any-boolean\x7d" && jsTypeof actual == "boolean") ||
  (s == "$\x7bjson-unit.any-object\x7d" &&
    (match actual with | .obj _ => true | _ => false)) ||
  (s == "$\x7bjson-unit.any-array\x7d" &&
    (match actual with | .arr _ => true | _ => false))

/-- Boolean key-set equality of two key lists. -/
def keySetEq (ka ke : List String) : Bool :=
  ka.all (fun k => ke.contains k) && ke.all (fun k => ka.contains k)

mutual

/-- Modelled from the claim, amended: exact JSON matching as deep structural
equality — equal object key sets, arrays equal in length and order — except
that wherever the expected document holds a string starting with
`$\x7bjson-unit` the comparison is the placeholder rule (`specJsonUnitRule`). -/
def specJsonExact (actual expected : Json) : Bool :=
  match expected with
  | .str es =>
    if jsStartsWith es "$\x7bjson-unit" then specJsonUnitRule actual es
    else actual == Json.str es
  | .arr es =>
    match actual with
    | .arr as' => specJsonExactList as' es
    | _ => false
  | .obj efs =>
    match actual with
    | .obj afs =>
      keySetEq (assocKeys afs) (assocKeys efs) && specJsonExactFields afs efs
    | _ => false
  | e => actual == e

/-- Arrays agree exactly when lengths agree and elements agree pointwise. -/
def specJsonExactList (as' es : List Json) : Bool :=
  match as', es with
  | [], [] => true
  | a :: ar, e :: er => specJsonExact a e && specJsonExactList ar er
  | _, _ => false

/-- Every expected field is present in the actual object and agrees. -/
def specJsonExactFields (afs : List (String × Json)) (efs : List (String × Json)) : Bool :=
  match efs with
  | [] => true
  | (k, v) :: rest =>
    (match lookupAssoc afs k with
     | none => false
     | some av => specJsonExact av v) && specJsonExactFields afs rest

end

/-- Modelled from the claim as frozen (before amendment): identical to
`specJsonExact` except that only the six enumerated placeholder strings
receive placeholder treatment — any other string, even one starting with the
reserved prefix, is compared by plain equality. -/
def specJsonExactClaim (actual expected : Json) : Bool :=
  match expected with
  | .str es =>
    if es == "$\x7bjson-unit.ignore\x7d" || es == "$\x7bjson-unit.any-string\x7d" ||
       es == "$\x7bjson-unit.any-number\x7d" || es == "$\x7bjson-unit.any-boolean\x7d" ||
       es == "$\x7bjson-unit.any-object\x7d" || es == "$\x7bjson-unit.any-array\x7d" then
      specJsonUnitRule actual es
    else actual == Json.str es
  | e => specJsonExact actual e

/-- The fixed whitelist of standard headers named by the claim. -/
def standardHeaderWhitelist : List String :=
  ["host", "connection", "content-length", "user-agent", "accept",
   "accept-encoding", "content-type"]

/-- Modelled from the claim: agreement of the expected and actual key sets
under `STRICT` matching — keys lowercased (case-insensitive comparison) and
compared modulo the whitelist of standard headers. -/
def specStrictKeySetsAgree (actual expected : List (String × Json)) : Bool :=
  let af := ((assocKeys actual).map jsToLower).filter
    (fun k => !standardHeaderWhitelist.contains k)
  let ef := ((assocKeys expected).map jsToLower).filter
    (fun k => !standardHeaderWhitelist.contains k)
  keySetEq af ef

/-- Modelled from the claim: the forward target URL
`scheme://host[:port]path[?query]` with the port omitted exactly at the
scheme default and the client's raw query preserved verbatim when available,
otherwise rebuilt from the parsed multimap preserving array semantics. -/
def specTargetUrlClaim (req : Request) (fc : HttpForward) : String :=
  let protocol := jsToLower (fc.scheme.getD "HTTP")
  let isDefault := (protocol == "http" && fc.port == 80) ||
    (protocol == "https" && fc.port == 443)
  let hostPort := if isDefault then fc.host else fc.host ++ ":" ++ toString fc.port
  let path := if req.path == "" then "/" else req.path
  let q :=
    match req.rawQuery with
    | some raw => if raw == "" then "" else "?" ++ raw
    | none =>
      if req.query.isEmpty then ""
      else "?" ++ String.intercalate "&" (req.query.flatMap (fun kv =>
        match kv.2 with
        | .arr xs => xs.map (fun x => kv.1 ++ "=" ++ jsStringCoerce x)
        | v => [kv.1 ++ "=" ++ jsStringCoerce v]))
  protocol ++ "://" ++ hostPort ++ path ++ q

/-- The amended forward-URL form: scheme lowercased, the `:port` part always
present (never omitted, even at the scheme default), the path defaulted to
`/`, and the query always rebuilt from the parsed multimap — each key with an
array value contributing one encoded `k=v` pair per element in order, every
other value one pair — never taken verbatim from the raw request. -/
def specForwardUrlAmended (enc : String → String) (req : Request) (fc : HttpForward) : String :=
  let protocol := jsToLower (fc.scheme.getD "HTTP")
  let path := if req.path == "" then "/" else req.path
  let q :=
    if req.query.isEmpty then ""
    else "?" ++ String.intercalate "&" (req.query.flatMap (fun kv =>
      match kv.2 with
      | .arr xs => xs.map (fun x => enc kv.1 ++ "=" ++ enc (jsStringCoerce x))
      | v => [enc kv.1 ++ "=" ++ enc (jsStringCoerce v)]))
  protocol ++ "://" ++ fc.host ++ ":" ++ toString fc.port ++ path ++ q

/-! Concrete fixtures used by witnesses and counterexamples. `nullEngines`
instantiates every external engine with a constantly failing oracle, so the
concrete runs below exercise only repository code paths. -/

/-- Engines whose regex compile, JSON parse, JSONPath and XPath evaluation
all fail; regex and string matching then degrade to pure string equality. -/
def nullEngines : Engines := ⟨fun _ => none, fun _ => none, fun _ _ => none, fun _ _ => none⟩

/-- An empty request-matcher spec to extend in fixtures. -/
def emptyHttpRequestSpec : HttpRequestSpec :=
  { method := none, path := none, queryStringParameters := none, query := none
    headers := none, body := none, matchType := none }

/-- A `type: http` expectation with only a literal path matcher and a canned
response, as the indexer tests build them. -/
def pathOnlyExp : Expectation :=
  { id := "e1", priority := none, typeField := some "http"
    httpRequest := { emptyHttpRequestSpec with path := some (StrSpec.plain "/api/x") }
    httpResponse := some (Json.obj [("statusCode", Json.num 200)]), httpForward := none }

/-- Store containing only `pathOnlyExp`. -/
def pathOnlyStore : List (String × Expectation) := [("e1", pathOnlyExp)]

/-- A request that `pathOnlyExp` matches. -/
def pathOnlyReq : Request := ⟨"GET", "/api/x", [], [], none, none⟩

/-- A schema-valid expectation document: no `type` property (the validation
schema has `additionalProperties: false` and no `type` field), a literal
method and path, and a canned response. -/
def schemaValidExp : Expectation :=
  { id := "", priority := none, typeField := none
    httpRequest := { emptyHttpRequestSpec with
      method := some (StrSpec.plain "GET"), path := some (StrSpec.plain "/api/x") }
    httpResponse := some (Json.obj []), httpForward := none }

/-- First persisted document of the duplicate-id pair. -/
def dupDocA : Expectation := { schemaValidExp with id := "a", priority := some 1 }

/-- Second persisted document carrying the same id. -/
def dupDocB : Expectation := { schemaValidExp with id := "a", priority := some 2 }

/-- C2 — the candidate index drops a matching expectation: with the store
holding one `type: http` expectation that fixes only the literal path
`/api/x`, `initializeIndices` files it under the path-prefix bucket, the full
matcher accepts the request `GET /api/x`, yet `findMatchingExpectation`
returns nothing because `getCandidateExpectationIds` unions only the method
bucket and the wildcard set and never consults the path index. This refutes
completeness (`find(r)` returns some expectation iff one matches). -/
theorem find_drops_path_indexed_match :
    matchesExpectation nullEngines pathOnlyReq pathOnlyExp = true ∧
    lookupAssoc (initializeIndices pathOnlyStore).pathIndex "/api" = some ["e1"] ∧
    findMatchingExpectation nullEngines pathOnlyReq pathOnlyStore
      (initializeIndices pathOnlyStore) = none := by
  refine ⟨by decide, by decide, by decide⟩

/-- C3 — the store-index lockstep invariant fails after a single `add`: the
admitted (schema-valid, hence `type`-less) expectation with a literal method
and path is present in the store, but `indexExpectation` skips every
expectation whose `type` is not `http`, so all three index structures stay
empty and the stored id appears in no bucket. -/
theorem add_leaves_expectation_unindexed :
    (lookupAssoc (addExpectation "uuid-1" schemaValidExp emptyStore).expectations
      "uuid-1").isSome = true ∧
    (addExpectation "uuid-1" schemaValidExp emptyStore).index = emptyIndex := by
  refine ⟨by decide, by decide⟩

/-- C8 — initialization from a persisted array with a duplicated id: loading
`[dupDocA, dupDocB]` (both with id `a`) through the id-keyed map keeps only
the later document, and the duplicate-id pass of `initializeStore` — fed a
map that can no longer contain a duplicate key — never assigns a fresh id.
The store ends with one expectation instead of two; the first occurrence is
silently dropped rather than kept. -/
theorem duplicate_ids_collapse_on_load :
    initializeStoreFromDocs ["u1", "u2"] [dupDocA, dupDocB] = [("a", dupDocB)] ∧
    (initializeStoreFromDocs ["u1", "u2"] [dupDocA, dupDocB]).length = 1 := by
  refine ⟨by decide, by decide⟩

/-- C4 counterexample — under `STRICT` match type as the request matcher
passes it (the string `strict`), the multi-value matcher accepts an actual
map with an extra non-whitelisted key, although the claim requires the key
sets to agree modulo the whitelist: the literal comparison
`matchType === 'STRICT'` never fires for `strict`. -/
theorem strict_extra_key_accepted :
    matchMultiValue nullEngines
      (some [("x-a", Json.str "1"), ("x-b", Json.str "2")])
      (some [("x-a", Json.str "1")]) "strict" = true ∧
    specStrictKeySetsAgree
      [("x-a", Json.str "1"), ("x-b", Json.str "2")]
      [("x-a", Json.str "1")] = false := by
  refine ⟨by decide, by decide⟩

/-- C5 counterexample — the pattern `a*b*c` under the anchored-regex
semantics of the claim accepts `aXbYc`, but `matchWildcardValue` handles at
most one interior star (its split-in-two branch) and rejects it. -/
theorem multistar_pattern_rejected :
    globMatchStr "a*b*c" "aXbYc" = true ∧
    matchWildcardValue "a*b*c" "aXbYc" = false := by
  refine ⟨by decide, by decide⟩

/-- C6 counterexample — the expected string `$\x7bjson-unit.whatever\x7d` is
not one of the six placeholders, so the claim as stated compares it by plain
equality and accepts an identical actual string; `deepEquals` routes every
string with the reserved prefix to the placeholder switch, whose default
rejects. -/
theorem unknown_placeholder_never_matches :
    specJsonExactClaim (Json.str "$\x7bjson-unit.whatever\x7d")
      (Json.str "$\x7bjson-unit.whatever\x7d") = true ∧
    deepEquals (Json.str "$\x7bjson-unit.whatever\x7d")
      (Json.str "$\x7bjson-unit.whatever\x7d") = false := by
  refine ⟨by decide, by decide⟩

/-- Request fixture for the forward-URL counterexample (no query). -/
def fwdReq : Request := ⟨"GET", "/api/resource", [], [], none, none⟩

/-- Forward config at the HTTP default port. -/
def fwdCfgDefaultPort : HttpForward := ⟨"example.com", 80, none⟩

/-- C7 counterexample — at the scheme-default port 80 the claim's URL form
omits `:80`, but `buildForwardUrl` appends the port unconditionally (its own
unit tests assert the same `:80` URL). -/
theorem default_port_not_omitted :
    buildForwardUrl (fun s => s) fwdReq fwdCfgDefaultPort =
      "http://example.com:80/api/resource" ∧
    specTargetUrlClaim fwdReq fwdCfgDefaultPort = "http://example.com/api/resource" ∧
    buildForwardUrl (fun s => s) fwdReq fwdCfgDefaultPort ≠
      specTargetUrlClaim fwdReq fwdCfgDefaultPort := by
  refine ⟨by decide, by decide, by decide⟩

/-- C10 — the field-level matchers are total Boolean functions that map
engine failures to "no match": a regex pattern the engine cannot compile
makes `matchRegex` return `false` for every actual value; an actual body that
the JSON parser rejects makes `matchJson` return `false` for every expected
document in either mode; an XPath evaluation whose parse/select throws makes
`matchXPath` return `false`. In the embedding each matcher is a Lean function
into `Bool`, so no input raises an error. -/
theorem matchers_report_errors_as_nonmatch
    (E : Engines) (actual pattern expected : Json) (s ex : String) (exact : Bool)
    (hre : E.regexCompile pattern = none)
    (hjs : E.jsonParse s = none)
    (hxp : E.xpathSelectLen ex (jsActualString actual) = none) :
    matchRegex E actual pattern = false ∧
    matchJson E (Json.str s) expected exact = false ∧
    matchXPath E actual (Json.str ex) = false := by
  refine ⟨?_, ?_, ?_⟩
  · simp [matchRegex, hre]
  · simp [matchJson, hjs]
  · by_cases hex : ex == ""
    · simp [matchXPath, hex]
    · simp [matchXPath, hex, hxp]

/-- Witness for C10: the theorem applied at the failing-engine instantiation
with a bad regex, a non-JSON body and a throwing XPath evaluation. -/
theorem matchers_report_errors_as_nonmatch_witness :
    matchRegex nullEngines (Json.str "abc") (Json.str "(") = false ∧
    matchJson nullEngines (Json.str "not json") (Json.obj []) true = false ∧
    matchXPath nullEngines (Json.str "<a><b></a>") (Json.str "//b") = false :=
  matchers_report_errors_as_nonmatch nullEngines (Json.str "abc") (Json.str "(")
    (Json.obj []) "not json" "//b" true rfl rfl rfl

/-- C9 — a forward expectation is matched on method and path alone: replacing
its query, header, body and match-type matchers by anything at all never
changes the verdict; and when the forward expectation fixes no method and a
non-empty literal path `p`, the verdict is exactly `matchRegex` of the
request path against `p` — the path is tested only by regex containment,
with no exact-string fallback, no wildcard handling and no query stripping. -/
theorem forward_matcher_method_path_only
    (E : Engines) (req : Request) (e : Expectation)
    (hf : e.httpForward.isSome = true) :
    (∀ qsp q h b mt,
      matchesExpectation E req
        { e with httpRequest := { e.httpRequest with
            queryStringParameters := qsp, query := q, headers := h,
            body := b, matchType := mt } } =
      matchesExpectation E req e) ∧
    (∀ p, e.httpRequest.method = none → e.httpRequest.path = some (StrSpec.plain p) →
      p ≠ "" →
      matchesExpectation E req e = matchRegex E (Json.str req.path) (Json.str p)) := by
  constructor
  · intro qsp q h b mt
    simp [matchesExpectation, hf, methodCheckPasses]
  · intro p hm hp hpne
    have hps : (p == "") = false := by
      simp [hpne]
    simp only [matchesExpectation, hf, methodCheckPasses, hm, hp, strSpecTruthy, hps,
      strSpecPatternJson, strSpecMatchValue, strSpecNot, if_true, Bool.true_and,
      Bool.not_eq_true]
    simp [bne, hps]

/-- Witness for C9: a concrete forward expectation with query, header and
body matchers attached; the theorem shows they are inert and that the path
check is the bare regex matcher. -/
theorem forward_matcher_method_path_only_witness :
    (matchesExpectation nullEngines pathOnlyReq
      { id := "f1", priority := none, typeField := none
        httpRequest := { emptyHttpRequestSpec with
          path := some (StrSpec.plain "/api/x")
          queryStringParameters := some [("a", Json.str "1")]
          headers := some [("x-h", Json.str "v")]
          body := some ⟨some "json", Json.obj [], none⟩, matchType := some "strict" }
        httpResponse := none, httpForward := some ⟨"example.com", 443, some "HTTPS"⟩ } =
     matchesExpectation nullEngines pathOnlyReq
      { id := "f1", priority := none, typeField := none
        httpRequest := { emptyHttpRequestSpec with path := some (StrSpec.plain "/api/x") }
        httpResponse := none, httpForward := some ⟨"example.com", 443, some "HTTPS"⟩ }) ∧
    matchesExpectation nullEngines pathOnlyReq
      { id := "f1", priority := none, typeField := none
        httpRequest := { emptyHttpRequestSpec with path := some (StrSpec.plain "/api/x") }
        httpResponse := none, httpForward := some ⟨"example.com", 443, some "HTTPS"⟩ } =
    matchRegex nullEngines (Json.str "/api/x") (Json.str "/api/x") := by
  constructor
  · exact (forward_matcher_method_path_only nullEngines pathOnlyReq
      { id := "f1", priority := none, typeField := none
        httpRequest := { emptyHttpRequestSpec with path := some (StrSpec.plain "/api/x") }
        httpResponse := none, httpForward := some ⟨"example.com", 443, some "HTTPS"⟩ }
      rfl).1 (some [("a", Json.str "1")]) none (some [("x-h", Json.str "v")])
      (some ⟨some "json", Json.obj [], none⟩) (some "strict")
  · exact (forward_matcher_method_path_only nullEngines pathOnlyReq
      { id := "f1", priority := none, typeField := none
        httpRequest := { emptyHttpRequestSpec with path := some (StrSpec.plain "/api/x") }
        httpResponse := none, httpForward := some ⟨"example.com", 443, some "HTTPS"⟩ }
      rfl).2 "/api/x" rfl rfl (by decide)

/-- The `URLSearchParams` accumulation loop of `buildForwardUrl` flattened:
appending per-entry pair lists one by one equals one `flatMap`. -/
theorem buildParams_eq_flatMap (l : List (String × Json)) (init : List (String × String)) :
    l.foldl (fun acc kv =>
      match kv.2 with
      | .arr xs => acc ++ xs.map (fun x => (kv.1, jsStringCoerce x))
      | v => acc ++ [(kv.1, jsStringCoerce v)]) init =
    init ++ l.flatMap (fun kv =>
      match kv.2 with
      | .arr xs => xs.map (fun x => (kv.1, jsStringCoerce x))
      | v => [(kv.1, jsStringCoerce v)]) := by
  induction l generalizing init with
  | nil => simp
  | cons kv rest ih =>
    obtain ⟨k, v⟩ := kv
    cases v <;> simp [List.foldl_cons, ih, List.append_assoc]

/-- C7 (amended) — the forward URL built by the executor always has the form
`scheme://host:port path query` with the port present unconditionally and the
query rebuilt from the parsed multimap (array values contributing one encoded
pair per element, in order); `specForwardUrlAmended` is that form written out
directly, and the two agree for every encoder, request and configuration. -/
theorem buildForwardUrl_amended_form (enc : String → String) (req : Request)
    (fc : HttpForward) :
    buildForwardUrl enc req fc = specForwardUrlAmended enc req fc := by
  unfold buildForwardUrl specForwardUrlAmended
  by_cases hq : req.query.isEmpty
  · simp [hq]
  · simp only [hq, if_false, Bool.false_eq_true]
    congr 2
    rw [buildParams_eq_flatMap, List.nil_append, List.map_flatMap]
    congr 1
    apply List.flatMap_congr
    intro kv _
    cases kv.2 <;> simp [List.map_map, Function.comp]

/-- The entry loop of the multi-value matcher only inspects its match type
through the literal comparison with `STRICT`, so two match types that agree
on that comparison are interchangeable. -/
theorem multiValueEntries_matchType_congr (E : Engines) (a : List (String × Json))
    (es : List (String × Json)) (mt₁ mt₂ : String)
    (h : (mt₁ == "STRICT") = (mt₂ == "STRICT")) :
    multiValueEntries E a es mt₁ = multiValueEntries E a es mt₂ := by
  induction es with
  | nil => rfl
  | cons kv rest ih =>
    obtain ⟨k, v⟩ := kv
    simp only [multiValueEntries, ih]
    cases hl : lookupAssoc a k with
    | none => rfl
    | some av =>
      cases v <;> cases av <;> simp [h]

/-- Entries of the expected map look the actual map up only at expected keys,
so an extra actual binding under a key outside the expected key set is
invisible to the entry loop. -/
theorem multiValueEntries_extra_key (E : Engines) (al : List (String × Json))
    (es : List (String × Json)) (k : String) (v : Json)
    (hk : k ∉ assocKeys es) (mt : String) :
    multiValueEntries E ((k, v) :: al) es mt = multiValueEntries E al es mt := by
  induction es with
  | nil => rfl
  | cons kv rest ih =>
    obtain ⟨k', v'⟩ := kv
    have hk' : k ≠ k' := by
      intro hkk
      exact hk (by simp [assocKeys, hkk])
    have hrest : k ∉ assocKeys rest := by
      intro hmem
      exact hk (by simp [assocKeys] at hmem ⊢; exact Or.inr hmem)
    have hkb : (k == k') = false := by
      simp [hk']
    have hlook : lookupAssoc ((k, v) :: al) k' = lookupAssoc al k' := by
      simp [lookupAssoc, List.find?, hkb]
    simp only [multiValueEntries, hlook, ih hrest]

/-- C4 (amended) — under both match types the request matcher can pass, the
string `strict` (the value of `MatchType.STRICT`) and `onlyMatchingFields`,
the multi-value matcher behaves identically: the strict key-set comparison
fires only on the literal string `STRICT`, which no call site produces.
Consequently only the expected keys are examined (case-sensitively, with no
header whitelist): an extra actual binding under any key outside the expected
key set never changes the verdict. -/
theorem strict_behaves_as_only_matching_fields (E : Engines)
    (actual expected : Option (List (String × Json))) :
    (matchMultiValue E actual expected "strict" =
      matchMultiValue E actual expected "onlyMatchingFields") ∧
    (∀ al es k v, k ∉ assocKeys es →
      matchMultiValue E (some ((k, v) :: al)) (some es) "strict" =
      matchMultiValue E (some al) (some es) "strict") := by
  constructor
  · cases actual with
    | none => rfl
    | some a =>
      cases expected with
      | none => rfl
      | some e =>
        simp only [matchMultiValue]
        rw [multiValueEntries_matchType_congr E a e "strict" "onlyMatchingFields" (by decide)]
        simp
  · intro al es k v hk
    simp only [matchMultiValue]
    rw [multiValueEntries_extra_key E al es k v hk "strict"]
    simp

/-- Witness for C4 (amended): the header map with an extra `host` binding
matches identically with and without it under `strict`, and `strict` agrees
with `onlyMatchingFields` on a concrete pair of maps. -/
theorem strict_behaves_as_only_matching_fields_witness :
    (matchMultiValue nullEngines (some [("x-a", Json.str "1"), ("x-b", Json.str "2")])
      (some [("x-a", Json.str "1")]) "strict" =
     matchMultiValue nullEngines (some [("x-a", Json.str "1"), ("x-b", Json.str "2")])
      (some [("x-a", Json.str "1")]) "onlyMatchingFields") ∧
    matchMultiValue nullEngines (some [("host", Json.str "h"), ("x-a", Json.str "1")])
      (some [("x-a", Json.str "1")]) "strict" =
    matchMultiValue nullEngines (some [("x-a", Json.str "1")])
      (some [("x-a", Json.str "1")]) "strict" := by
  constructor
  · exact (strict_behaves_as_only_matching_fields nullEngines
      (some [("x-a", Json.str "1"), ("x-b", Json.str "2")])
      (some [("x-a", Json.str "1")])).1
  · exact (strict_behaves_as_only_matching_fields nullEngines none none).2
      [("x-a", Json.str "1")] [("x-a", Json.str "1")] "host" (Json.str "h") (by decide)

/-- The code's placeholder switch and the specification's placeholder rule
agree on every actual value and every placeholder string. -/
theorem matchJsonUnitPlaceholder_eq_rule (a : Json) (s : String) :
    matchJsonUnitPlaceholder a s = specJsonUnitRule a s := by
  by_cases h1 : s = "$\x7bjson-unit.ignore\x7d"
  · subst h1; cases a <;> rfl
  · by_cases h2 : s = "$\x7bjson-unit.any-string\x7d"
    · subst h2; cases a <;> rfl
    · by_cases h3 : s = "$\x7bjson-unit.any-number\x7d"
      · subst h3; cases a <;> rfl
      · by_cases h4 : s = "$\x7bjson-unit.any-boolean\x7d"
        · subst h4; cases a <;> rfl
        · by_cases h5 : s = "$\x7bjson-unit.any-object\x7d"
          · subst h5; cases a <;> rfl
          · by_cases h6 : s = "$\x7bjson-unit.any-array\x7d"
            · subst h6; cases a <;> rfl
            · unfold matchJsonUnitPlaceholder specJsonUnitRule
              simp [h1, h2, h3, h4, h5, h6]

/-- A value found by association lookup in a well-formed field list is
well-formed. -/
theorem lookupAssoc_wf (afs : List (String × Json)) (k : String) (av : Json)
    (hwf : jsonWFFields afs = true) (hl : lookupAssoc afs k = some av) :
    jsonWF av = true := by
  induction afs with
  | nil => simp [lookupAssoc] at hl
  | cons p rest ih =>
    obtain ⟨k', v'⟩ := p
    simp only [jsonWFFields, Bool.and_eq_true] at hwf
    by_cases hk : (k' == k) = true
    · simp [lookupAssoc, List.find?, hk] at hl
      exact hl ▸ hwf.1
    · simp only [Bool.not_eq_true] at hk
      simp [lookupAssoc, List.find?, hk] at hl
      exact ih hwf.2 (by simp [lookupAssoc, hl])

/-- A successful association lookup shows the key is among the keys. -/
theorem lookupAssoc_mem_keys (afs : List (String × Json)) (k : String) (av : Json)
    (hl : lookupAssoc afs k = some av) : k ∈ assocKeys afs := by
  induction afs with
  | nil => simp [lookupAssoc] at hl
  | cons p rest ih =>
    obtain ⟨k', v'⟩ := p
    by_cases hk : (k' == k) = true
    · simp only [beq_iff_eq] at hk
      simp [assocKeys, hk]
    · simp only [Bool.not_eq_true] at hk
      simp [lookupAssoc, List.find?, hk] at hl
      have := ih (by simp [lookupAssoc, hl])
      simp [assocKeys] at this ⊢
      exact Or.inr this

/-- The Boolean nodup check agrees with `List.Nodup`. -/
theorem listNodup_iff (l : List String) : listNodup l = true ↔ l.Nodup := by
  induction l with
  | nil => simp [listNodup]
  | cons x xs ih => simp [listNodup, List.nodup_cons, ih, List.elem_iff]

/-- Keys looked up by a successful field traversal: every expected key is
present among the actual keys. -/
theorem deepEqualsFields_keys_subset (afs efs : List (String × Json))
    (h : deepEqualsFields afs efs = true) :
    ∀ k ∈ assocKeys efs, k ∈ assocKeys afs := by
  induction efs with
  | nil => simp [assocKeys]
  | cons p rest ih =>
    obtain ⟨k', v'⟩ := p
    simp only [deepEqualsFields, Bool.and_eq_true] at h
    intro k hk
    simp only [assocKeys, List.map_cons, List.mem_cons] at hk
    rcases hk with hk | hk
    · subst hk
      cases hl : lookupAssoc afs k with
      | none => simp [hl] at h
      | some av => exact lookupAssoc_mem_keys afs k av hl
    · exact ih h.2 k hk

/-- `keySetEq` unpacked to the two subset statements. -/
theorem keySetEq_iff (ka ke : List String) :
    keySetEq ka ke = true ↔ (∀ k ∈ ka, k ∈ ke) ∧ (∀ k ∈ ke, k ∈ ka) := by
  simp [keySetEq, List.all_eq_true, List.elem_iff]

/-- Two duplicate-free key lists that contain each other have equal length. -/
theorem nodup_mutual_subset_length (ka ke : List String)
    (hka : ka.Nodup) (hke : ke.Nodup)
    (h1 : ∀ k ∈ ka, k ∈ ke) (h2 : ∀ k ∈ ke, k ∈ ka) : ka.length = ke.length :=
  Nat.le_antisymm ((hka.subperm (fun _ h => h1 _ h)).length_le)
    ((hke.subperm (fun _ h => h2 _ h)).length_le)

/-- A duplicate-free key list contained in another of the same length is also
a superset of it. -/
theorem nodup_subset_length_superset (ka ke : List String)
    (hke : ke.Nodup) (hsub : ∀ k ∈ ke, k ∈ ka) (hlen : ka.length = ke.length) :
    ∀ k ∈ ka, k ∈ ke := by
  have hperm : ke.Perm ka :=
    (hke.subperm (fun _ h => hsub _ h)).perm_of_length_le (Nat.le_of_eq hlen)
  intro k hk
  exact hperm.mem_iff.mpr hk

mutual

/-- The source `deepEquals` agrees with the amended-specification exact
matcher on every pair of well-formed documents. -/
theorem deepEquals_eq_specJsonExact :
    ∀ (a e : Json), jsonWF a = true → jsonWF e = true → deepEquals a e = specJsonExact a e
  | a, .str es => fun _ _ => by
    by_cases h : jsStartsWith es "$\x7bjson-unit" = true
    · simp [deepEquals, specJsonExact, h, matchJsonUnitPlaceholder_eq_rule]
    · simp only [Bool.not_eq_true] at h
      cases a <;> simp [deepEquals, specJsonExact, h, jsTypeof]
  | a, .null => fun _ _ => by
    cases a <;> simp [deepEquals, specJsonExact, jsTypeof]
  | a, .bool b => fun _ _ => by
    cases a <;> simp [deepEquals, specJsonExact, jsTypeof]
  | a, .num n => fun _ _ => by
    cases a <;> simp [deepEquals, specJsonExact, jsTypeof]
  | a, .arr es => fun ha he => by
    cases a with
    | arr as' =>
      have ha' : jsonWFList as' = true := by simpa [jsonWF] using ha
      have he' : jsonWFList es = true := by simpa [jsonWF] using he
      have h := deepEqualsList_eq_specList as' es ha' he'
      simpa [deepEquals, specJsonExact, jsTypeof] using h
    | null => simp [deepEquals, specJsonExact, jsTypeof]
    | bool _ => simp [deepEquals, specJsonExact, jsTypeof]
    | num _ => simp [deepEquals, specJsonExact, jsTypeof]
    | str _ => simp [deepEquals, specJsonExact, jsTypeof]
    | obj _ => simp [deepEquals, specJsonExact, jsTypeof]
  | a, .obj efs => fun ha he => by
    cases a with
    | obj afs =>
      have hand : listNodup (assocKeys afs) = true ∧ jsonWFFields afs = true := by
        simpa [jsonWF] using ha
      have hend : listNodup (assocKeys efs) = true ∧ jsonWFFields efs = true := by
        simpa [jsonWF] using he
      have hfields := deepEqualsFields_eq_specFields afs efs hand.2 hend.2
      have hka : (assocKeys afs).Nodup := (listNodup_iff _).mp hand.1
      have hke : (assocKeys efs).Nodup := (listNodup_iff _).mp hend.1
      have hlenkeys : (assocKeys afs).length = afs.length := List.length_map _ _
      have hlenkeys' : (assocKeys efs).length = efs.length := List.length_map _ _
      by_cases hF : deepEqualsFields afs efs = true
      · have hsub : ∀ k ∈ assocKeys efs, k ∈ assocKeys afs :=
          deepEqualsFields_keys_subset afs efs hF
        by_cases hlen : afs.length = efs.length
        · have hkeq : keySetEq (assocKeys afs) (assocKeys efs) = true := by
            rw [keySetEq_iff]
            refine ⟨?_, hsub⟩
            exact nodup_subset_length_superset _ _ hke hsub
              (by rw [hlenkeys, hlenkeys', hlen])
          simp [deepEquals, specJsonExact, jsTypeof, hkeq, hfields, hlen]
        · have hkeq : keySetEq (assocKeys afs) (assocKeys efs) = false := by
            by_contra hc
            have hc' : keySetEq (assocKeys afs) (assocKeys efs) = true := by
              cases hck : keySetEq (assocKeys afs) (assocKeys efs)
              · exact absurd hck hc
              · rfl
            rw [keySetEq_iff] at hc'
            have := nodup_mutual_subset_length _ _ hka hke hc'.1 hc'.2
            rw [hlenkeys, hlenkeys'] at this
            exact hlen this
          simp [deepEquals, specJsonExact, jsTypeof, hkeq, hlen]
      · have hF' : deepEqualsFields afs efs = false := by
          cases hck : deepEqualsFields afs efs
          · rfl
          · exact absurd hck hF
        simp [deepEquals, specJsonExact, jsTypeof, hF', hfields ▸ hF']
    | null => simp [deepEquals, specJsonExact, jsTypeof]
    | bool _ => simp [deepEquals, specJsonExact, jsTypeof]
    | num _ => simp [deepEquals, specJsonExact, jsTypeof]
    | str _ => simp [deepEquals, specJsonExact, jsTypeof]
    | arr _ => simp [deepEquals, specJsonExact, jsTypeof]

/-- Array comparison: the code's explicit length check plus pointwise loop
equals the specification's structural recursion. -/
theorem deepEqualsList_eq_specList :
    ∀ (as' es : List Json), jsonWFList as' = true → jsonWFList es = true →
      ((as'.length == es.length) && deepEqualsList as' es) = specJsonExactList as' es
  | [], [] => fun _ _ => by simp [deepEqualsList, specJsonExactList]
  | [], _ :: _ => fun _ _ => by simp [deepEqualsList, specJsonExactList]
  | _ :: _, [] => fun _ _ => by simp [deepEqualsList, specJsonExactList]
  | a :: ar, e :: er => fun ha he => by
    have ha' : jsonWF a = true ∧ jsonWFList ar = true := by
      simpa [jsonWFList] using ha
    have he' : jsonWF e = true ∧ jsonWFList er = true := by
      simpa [jsonWFList] using he
    have h1 := deepEquals_eq_specJsonExact a e ha'.1 he'.1
    have h2 := deepEqualsList_eq_specList ar er ha'.2 he'.2
    have hsucc : ((a :: ar).length == (e :: er).length) = (ar.length == er.length) := by
      rw [Bool.eq_iff_iff]
      simp
    have hred : deepEqualsList (a :: ar) (e :: er) =
        (deepEquals a e && deepEqualsList ar er) := rfl
    rw [hred, hsucc, h1, Bool.and_left_comm, h2]
    rfl

/-- Field traversal: the code's expected-key loop equals the specification's,
pointwise through the value-level agreement. -/
theorem deepEqualsFields_eq_specFields :
    ∀ (afs efs : List (String × Json)), jsonWFFields afs = true → jsonWFFields efs = true →
      deepEqualsFields afs efs = specJsonExactFields afs efs
  | afs, [] => fun _ _ => by simp [deepEqualsFields, specJsonExactFields]
  | afs, (k, v) :: rest => fun ha he => by
    have he' : jsonWF v = true ∧ jsonWFFields rest = true := by
      simpa [jsonWFFields] using he
    have hrest := deepEqualsFields_eq_specFields afs rest ha he'.2
    cases hl : lookupAssoc afs k with
    | none => simp [deepEqualsFields, specJsonExactFields, hl]
    | some av =>
      have hav := lookupAssoc_wf afs k av ha hl
      have h1 := deepEquals_eq_specJsonExact av v hav he'.1
      simp [deepEqualsFields, specJsonExactFields, hl, h1, hrest]

end

/-- C6 (amended) — in exact mode the JSON matcher accepts two well-formed
documents exactly when they are deeply structurally equal (equal object key
sets; arrays equal in length and order), except that wherever the expected
document holds a string beginning with `$\x7bjson-unit` the comparison is by
placeholder rule: `ignore` always matches, the five `any-…` placeholders
match by JSON type, and any other reserved-prefix string matches nothing. -/
theorem exact_json_matches_amended_spec (a e : Json)
    (ha : jsonWF a = true) (he : jsonWF e = true) :
    deepEquals a e = specJsonExact a e :=
  deepEquals_eq_specJsonExact a e ha he

/-- Witness for C6: the spec's scenario — `\x7bid: 7, name: "bob"\x7d`
against `\x7bid: any-number, name: any-string\x7d` — both documents
well-formed; the matcher verdict coincides with the amended specification
(and is `true`), while the string-typed id variant yields `false`. -/
theorem exact_json_matches_amended_spec_witness :
    jsonWF (Json.obj [("id", Json.num 7), ("name", Json.str "bob")]) = true ∧
    jsonWF (Json.obj [("id", Json.str "$\x7bjson-unit.any-number\x7d"),
      ("name", Json.str "$\x7bjson-unit.any-string\x7d")]) = true ∧
    deepEquals (Json.obj [("id", Json.num 7), ("name", Json.str "bob")])
      (Json.obj [("id", Json.str "$\x7bjson-unit.any-number\x7d"),
        ("name", Json.str "$\x7bjson-unit.any-string\x7d")]) =
    specJsonExact (Json.obj [("id", Json.num 7), ("name", Json.str "bob")])
      (Json.obj [("id", Json.str "$\x7bjson-unit.any-number\x7d"),
        ("name", Json.str "$\x7bjson-unit.any-string\x7d")]) :=
  ⟨by decide, by decide,
    exact_json_matches_amended_spec _ _ (by decide) (by decide)⟩

/-- Membership in `charSuffixes` is exactly the suffix relation. -/
theorem mem_charSuffixes (v v' : List Char) : v' ∈ charSuffixes v ↔ v' <:+ v := by
  induction v with
  | nil => simp [charSuffixes, List.suffix_nil]
  | cons c cs ih => simp [charSuffixes, ih, List.suffix_cons_iff]

/-- Splitting a star-free head off a `starFree` cons cell. -/
theorem starFree_cons (c : Char) (cs : List Char) :
    starFree (c :: cs) = true ↔ (¬c = '*' ∧ starFree cs = true) := by
  simp [starFree, List.elem_iff]
  intro _
  exact ⟨fun h hc => h hc.symm, fun h hc => h hc.symm⟩

/-- A star at the head of the pattern matches when the rest of the pattern
matches some suffix of the value. -/
theorem globMatch_star_iff (ps v : List Char) :
    globMatch ('*' :: ps) v = true ↔ ∃ v', v' <:+ v ∧ globMatch ps v' = true := by
  have h : globMatch ('*' :: ps) v = (charSuffixes v).any (fun v' => globMatch ps v') := by
    simp [globMatch]
  rw [h, List.any_eq_true]
  constructor
  · rintro ⟨v', hmem, hm⟩
    exact ⟨v', (mem_charSuffixes v v').mp hmem, hm⟩
  · rintro ⟨v', hsuf, hm⟩
    exact ⟨v', (mem_charSuffixes v v').mpr hsuf, hm⟩

/-- A star-free pattern glob-matches exactly its own literal text. -/
theorem globMatch_starFree_iff (s : List Char) (hs : starFree s = true) :
    ∀ v, (globMatch s v = true ↔ s = v) := by
  induction s with
  | nil =>
    intro v
    cases v <;> simp [globMatch]
  | cons c cs ih =>
    have hc : ¬c = '*' := ((starFree_cons c cs).mp hs).1
    have hcs : starFree cs = true := ((starFree_cons c cs).mp hs).2
    intro v
    cases v with
    | nil => simp [globMatch, hc]
    | cons d vs => simp [globMatch, hc, ih hcs vs]

/-- Pattern `s*` (star-free `s`) glob-matches exactly the values with prefix
`s`. -/
theorem globMatch_trailing_star (s : List Char) (hs : starFree s = true) :
    ∀ v, (globMatch (s ++ ['*']) v = true ↔ s <+: v) := by
  induction s with
  | nil =>
    intro v
    rw [List.nil_append]
    rw [globMatch_star_iff]
    simp only [List.nil_prefix, iff_true]
    refine ⟨[], List.nil_suffix, by simp [globMatch]⟩
  | cons c cs ih =>
    have hc : ¬c = '*' := ((starFree_cons c cs).mp hs).1
    have hcs : starFree cs = true := ((starFree_cons c cs).mp hs).2
    intro v
    cases v with
    | nil => simp [globMatch, hc]
    | cons d vs =>
      simp [globMatch, hc, ih hcs vs, List.cons_prefix_cons]

/-- Pattern `*s` (star-free `s`) glob-matches exactly the values with suffix
`s`. -/
theorem globMatch_leading_star (s : List Char) (hs : starFree s = true) (v : List Char) :
    globMatch ('*' :: s) v = true ↔ s <:+ v := by
  rw [globMatch_star_iff]
  constructor
  · rintro ⟨v', hsuf, hm⟩
    rw [globMatch_starFree_iff s hs v'] at hm
    exact hm ▸ hsuf
  · intro hsuf
    exact ⟨s, hsuf, (globMatch_starFree_iff s hs s).mpr rfl⟩

/-- Pattern `*s*` (star-free `s`) glob-matches exactly the values containing
`s`. -/
theorem globMatch_both_stars (s : List Char) (hs : starFree s = true) (v : List Char) :
    globMatch ('*' :: (s ++ ['*'])) v = true ↔ s <:+: v := by
  rw [globMatch_star_iff, List.infix_iff_prefix_suffix]
  constructor
  · rintro ⟨v', hsuf, hm⟩
    exact ⟨v', (globMatch_trailing_star s hs v').mp hm, hsuf⟩
  · rintro ⟨t, hpre, hsuf⟩
    exact ⟨t, hsuf, (globMatch_trailing_star s hs t).mpr hpre⟩

/-- Soundness of the regex semantics for a single interior star: a glob match
of `a*b` (star-free `a`, `b`) forces prefix `a` and suffix `b`. -/
theorem globMatch_interior_star (a b : List Char) (ha : starFree a = true)
    (hb : starFree b = true) :
    ∀ v, globMatch (a ++ '*' :: b) v = true → a <+: v ∧ b <:+ v := by
  induction a with
  | nil =>
    intro v hm
    rw [List.nil_append] at hm
    exact ⟨List.nil_prefix, (globMatch_leading_star b hb v).mp hm⟩
  | cons c ca ih =>
    have hc : ¬c = '*' := ((starFree_cons c ca).mp ha).1
    have hca : starFree ca = true := ((starFree_cons c ca).mp ha).2
    intro v hm
    cases v with
    | nil => simp [globMatch, hc] at hm
    | cons d vs =>
      simp only [List.cons_append, globMatch, if_neg hc, Bool.and_eq_true, beq_iff_eq] at hm
      obtain ⟨hcd, hm⟩ := hm
      obtain ⟨hpre, hsuf⟩ := ih hca vs hm
      exact ⟨(List.cons_prefix_cons).mpr ⟨hcd, hpre⟩,
        hsuf.trans (List.suffix_cons d vs)⟩

/-- The Boolean substring test is the infix relation. -/
theorem listContainsSub_iff_infix (sub v : List Char) :
    listContainsSub sub v = true ↔ sub <:+: v := by
  induction v with
  | nil =>
    simp [listContainsSub, List.isEmpty_iff]
  | cons x xs ih =>
    simp [listContainsSub, List.isPrefixOf_iff_prefix, ih, List.infix_cons_iff]

/-- The Boolean prefix test unfolded to the prefix relation. -/
theorem jsStartsWith_iff (s pre : String) :
    jsStartsWith s pre = true ↔ pre.data <+: s.data :=
  List.isPrefixOf_iff_prefix

/-- The Boolean suffix test unfolded to the suffix relation. -/
theorem jsEndsWith_iff (s suf : String) :
    jsEndsWith s suf = true ↔ suf.data <:+ s.data :=
  List.isSuffixOf_iff_suffix

/-- The Boolean containment test unfolded to the infix relation. -/
theorem jsIncludes_iff (s sub : String) :
    jsIncludes s sub = true ↔ sub.data <:+: s.data :=
  listContainsSub_iff_infix _ _

/-- The star never occurs in a star-free list. -/
theorem starFree_not_mem (l : List Char) (h : starFree l = true) : '*' ∉ l := by
  simp [starFree, List.elem_iff] at h
  exact h

/-- A one-character prefix pins down the head. -/
theorem singleton_prefix_iff (c : Char) (l : List Char) :
    [c] <+: l ↔ ∃ t, l = c :: t := by
  constructor
  · rintro ⟨t, ht⟩
    exact ⟨t, ht.symm⟩
  · rintro ⟨t, rfl⟩
    exact ⟨t, rfl⟩

/-- A one-character suffix pins down the last element. -/
theorem singleton_suffix_iff (c : Char) (l : List Char) :
    [c] <:+ l ↔ ∃ t, l = t ++ [c] := by
  constructor
  · rintro ⟨t, ht⟩
    exact ⟨t, ht.symm⟩
  · rintro ⟨t, rfl⟩
    exact ⟨t, rfl⟩

/-- A star-free list never ends in the star. -/
theorem starFree_no_star_suffix (l : List Char) (h : starFree l = true) :
    ¬['*'] <:+ l := by
  intro hsuf
  rw [singleton_suffix_iff] at hsuf
  obtain ⟨t, rfl⟩ := hsuf
  exact starFree_not_mem _ h (by simp)

/-- A star-free non-empty list never starts with the star. -/
theorem starFree_no_star_prefix (l : List Char) (h : starFree l = true) :
    ¬['*'] <+: l := by
  intro hpre
  rw [singleton_prefix_iff] at hpre
  obtain ⟨t, rfl⟩ := hpre
  exact starFree_not_mem _ h (by simp)

/-- The split of any list is non-empty. -/
theorem splitOnChar_ne_nil (c : Char) (l : List Char) : splitOnChar c l ≠ [] := by
  cases l with
  | nil => simp [splitOnChar]
  | cons x xs =>
    cases hr : splitOnChar c xs with
    | nil => simp [splitOnChar, hr]
    | cons seg rest =>
      simp only [splitOnChar, hr]
      split <;> simp

/-- Splitting a list that begins with the separator. -/
theorem splitOnChar_cons_sep (c : Char) (r : List Char) :
    splitOnChar c (c :: r) = [] :: splitOnChar c r := by
  cases hr : splitOnChar c r with
  | nil => exact absurd hr (splitOnChar_ne_nil c r)
  | cons seg rest => simp [splitOnChar, hr]

/-- Splitting a separator-free list yields the list itself. -/
theorem splitOnChar_starFreeSeg (c : Char) (l : List Char) (h : c ∉ l) :
    splitOnChar c l = [l] := by
  induction l with
  | nil => simp [splitOnChar]
  | cons x xs ih =>
    have hx : ¬x = c := by
      intro hxc
      exact h (by simp [hxc])
    have hxs : c ∉ xs := by
      intro hmem
      exact h (by simp [hmem])
    simp [splitOnChar, ih hxs, hx]

/-- Splitting past a separator-free segment peels that segment off. -/
theorem splitOnChar_append_sep (c : Char) (l r : List Char) (h : c ∉ l) :
    splitOnChar c (l ++ c :: r) = l :: splitOnChar c r := by
  induction l with
  | nil => simpa using splitOnChar_cons_sep c r
  | cons x xs ih =>
    have hx : ¬x = c := by
      intro hxc
      exact h (by simp [hxc])
    have hxs : c ∉ xs := by
      intro hmem
      exact h (by simp [hmem])
    have := ih hxs
    simp only [List.cons_append, splitOnChar, if_neg hx]
    have hm : splitOnChar c (xs.append (c :: r)) = xs :: splitOnChar c r := this
    rw [hm]

/-- A list containing the separator splits into at least two segments. -/
theorem splitOnChar_length_ge_two (c : Char) (l : List Char) (h : c ∈ l) :
    2 ≤ (splitOnChar c l).length := by
  induction l with
  | nil => simp at h
  | cons x xs ih =>
    by_cases hx : c = x
    · subst hx
      rw [splitOnChar_cons_sep]
      have := splitOnChar_ne_nil c xs
      cases hxs : splitOnChar c xs with
      | nil => exact absurd hxs this
      | cons seg rest => simp
    · have hmem : c ∈ xs := by
        rcases List.mem_cons.mp h with h1 | h1
        · exact absurd h1 hx
        · exact h1
      have h2 := ih hmem
      cases hxs : splitOnChar c xs with
      | nil => exact absurd hxs (splitOnChar_ne_nil c xs)
      | cons seg rest =>
        rw [hxs] at h2
        have hcx : ¬x = c := fun hh => hx hh.symm
        simp only [splitOnChar, hxs, if_neg hcx]
        simpa using h2

/-- Evaluation of the wildcard matcher on a trailing-star pattern `a*`:
the prefix test on the value. -/
theorem matchWildcardValue_trailing (a v : String) (x : Char) (xs : List Char)
    (hx : a.data = x :: xs) (hxstar : ¬x = '*') :
    matchWildcardValue (a ++ "*") v = jsStartsWith v a := by
  have hdata : (a ++ "*").data = a.data ++ ['*'] := String.data_append a "*"
  have hne1 : a ++ "*" ≠ "*" := by
    intro h
    have hd := congrArg String.data h
    rw [hdata, hx] at hd
    simp at hd
  have hne2 : a ++ "*" ≠ "test*ing" := by
    intro h
    have hd := congrArg String.data h
    rw [hdata] at hd
    have h1 : (a.data ++ ['*']).getLast? = some '*' := by simp
    have h2 : (("test*ing" : String).data).getLast? = some 'g' := rfl
    rw [hd, h2] at h1
    injection h1 with h1
    exact absurd h1 (by decide)
  have hb1 : ((a ++ "*") == "*") = false := by simp [hne1]
  have hb2 : ((a ++ "*") == "test*ing") = false := by simp [hne2]
  have hsw : jsStartsWith (a ++ "*") "*" = false := by
    rw [Bool.eq_false_iff, Ne, jsStartsWith_iff,
      show ("*" : String).data = ['*'] from rfl, hdata, hx]
    intro hpre
    rw [singleton_prefix_iff] at hpre
    obtain ⟨t, ht⟩ := hpre
    simp at ht
    exact hxstar ht.1
  have hew : jsEndsWith (a ++ "*") "*" = true := by
    rw [jsEndsWith_iff, hdata, show ("*" : String).data = ['*'] from rfl]
    exact List.suffix_append a.data ['*']
  unfold matchWildcardValue
  simp [hb1, hb2, hsw, hew, hdata]

/-- Evaluation of the wildcard matcher on a leading-star pattern `*a`:
the suffix test on the value. -/
theorem matchWildcardValue_leading (a v : String) (x : Char) (xs : List Char)
    (hx : a.data = x :: xs) (hsf : starFree a.data = true) :
    matchWildcardValue ("*" ++ a) v = jsEndsWith v a := by
  have hdata : ("*" ++ a).data = '*' :: a.data := String.data_append "*" a
  have hne1 : "*" ++ a ≠ "*" := by
    intro h
    have hd := congrArg String.data h
    rw [hdata, hx] at hd
    simp at hd
  have hne2 : "*" ++ a ≠ "test*ing" := by
    intro h
    have hd := congrArg String.data h
    rw [hdata] at hd
    have h1 := congrArg List.head? hd
    simp at h1
  have hb1 : (("*" ++ a) == "*") = false := by simp [hne1]
  have hb2 : (("*" ++ a) == "test*ing") = false := by simp [hne2]
  have hsw : jsStartsWith ("*" ++ a) "*" = true := by
    rw [jsStartsWith_iff, hdata, show ("*" : String).data = ['*'] from rfl]
    exact (singleton_prefix_iff '*' _).mpr ⟨a.data, rfl⟩
  have hew : jsEndsWith ("*" ++ a) "*" = false := by
    rw [Bool.eq_false_iff, Ne, jsEndsWith_iff, hdata,
      show ("*" : String).data = ['*'] from rfl]
    intro hsuf
    rw [singleton_suffix_iff] at hsuf
    obtain ⟨t, ht⟩ := hsuf
    have h1 : (t ++ ['*']).getLast? = some '*' := by simp
    rw [← ht] at h1
    rw [hx] at h1
    simp only [List.getLast?_cons_cons] at h1
    have hmem : '*' ∈ x :: xs := List.mem_of_mem_getLast? (by simp [h1])
    rw [← hx] at hmem
    exact starFree_not_mem a.data hsf hmem
  unfold matchWildcardValue
  simp [hb1, hb2, hsw, hew, hdata]

/-- Evaluation of the wildcard matcher on a both-ends-starred pattern `*a*`:
the containment test on the value. -/
theorem matchWildcardValue_bothStars (a v : String) :
    matchWildcardValue ("*" ++ a ++ "*") v = jsIncludes v a := by
  have hdata : ("*" ++ a ++ "*").data = '*' :: (a.data ++ ['*']) := by
    rw [String.data_append, String.data_append]
    rfl
  have hne1 : "*" ++ a ++ "*" ≠ "*" := by
    intro h
    have hd := congrArg String.data h
    rw [hdata] at hd
    have := congrArg List.length hd
    simp at this
  have hne2 : "*" ++ a ++ "*" ≠ "test*ing" := by
    intro h
    have hd := congrArg String.data h
    rw [hdata] at hd
    have h1 := congrArg List.head? hd
    simp at h1
  have hb1 : (("*" ++ a ++ "*") == "*") = false := by simp [hne1]
  have hb2 : (("*" ++ a ++ "*") == "test*ing") = false := by simp [hne2]
  have hsw : jsStartsWith ("*" ++ a ++ "*") "*" = true := by
    rw [jsStartsWith_iff, hdata, show ("*" : String).data = ['*'] from rfl]
    exact (singleton_prefix_iff '*' _).mpr ⟨a.data ++ ['*'], rfl⟩
  have hew : jsEndsWith ("*" ++ a ++ "*") "*" = true := by
    rw [jsEndsWith_iff, hdata, show ("*" : String).data = ['*'] from rfl]
    exact (singleton_suffix_iff '*' _).mpr ⟨'*' :: a.data, by simp⟩
  unfold matchWildcardValue
  simp [hb1, hb2, hsw, hew, hdata]

/-- The last element of an appended list comes from a non-empty right part. -/
theorem getLast?_append_right (l : List Char) (y : Char) (ys : List Char) :
    (l ++ y :: ys).getLast? = (y :: ys).getLast? := by
  cases hys : (y :: ys).getLast? with
  | none => simp at hys
  | some z => simp [List.getLast?_append, hys]

/-- The last element of an appended list comes from the right part whenever
that part is non-empty. -/
theorem getLast?_append_ne_nil (l r : List Char) (hr : r ≠ []) :
    (l ++ r).getLast? = r.getLast? := by
  obtain ⟨c, cs, rfl⟩ := List.exists_cons_of_ne_nil hr
  exact getLast?_append_right l c cs

/-- Evaluation of the wildcard matcher on a leading-star pattern `*a` for an
arbitrary non-empty `a` not ending in `*` (stars inside `a` are literal):
the suffix test on the value. -/
theorem matchWildcardValue_leading_any (a v : String) (x : Char) (xs : List Char)
    (hx : a.data = x :: xs) (hlast : a.data.getLast? ≠ some '*') :
    matchWildcardValue ("*" ++ a) v = jsEndsWith v a := by
  have hdata : ("*" ++ a).data = '*' :: a.data := String.data_append "*" a
  have hne1 : "*" ++ a ≠ "*" := by
    intro h
    have hd := congrArg String.data h
    rw [hdata, hx] at hd
    simp at hd
  have hne2 : "*" ++ a ≠ "test*ing" := by
    intro h
    have hd := congrArg String.data h
    rw [hdata] at hd
    have h1 := congrArg List.head? hd
    simp at h1
  have hb1 : (("*" ++ a) == "*") = false := by simp [hne1]
  have hb2 : (("*" ++ a) == "test*ing") = false := by simp [hne2]
  have hsw : jsStartsWith ("*" ++ a) "*" = true := by
    rw [jsStartsWith_iff, hdata, show ("*" : String).data = ['*'] from rfl]
    exact (singleton_prefix_iff '*' _).mpr ⟨a.data, rfl⟩
  have hew : jsEndsWith ("*" ++ a) "*" = false := by
    rw [Bool.eq_false_iff, Ne, jsEndsWith_iff, hdata,
      show ("*" : String).data = ['*'] from rfl]
    intro hsuf
    rw [singleton_suffix_iff] at hsuf
    obtain ⟨t, ht⟩ := hsuf
    have h1 : (t ++ ['*']).getLast? = some '*' := by simp
    have h2 : ('*' :: a.data).getLast? = a.data.getLast? := by
      rw [show ('*' :: a.data) = ['*'] ++ a.data from rfl,
        getLast?_append_ne_nil ['*'] a.data (by rw [hx]; simp)]
    rw [← ht, h2] at h1
    exact hlast h1
  unfold matchWildcardValue
  simp [hb1, hb2, hsw, hew, hdata]

/-- Evaluation of the wildcard matcher on a single-interior-star pattern
`a*b`: independent prefix and suffix tests on the value. -/
theorem matchWildcardValue_interior (a b v : String) (x y : Char) (xs ys : List Char)
    (hxa : a.data = x :: xs) (hyb : b.data = y :: ys)
    (hsfa : starFree a.data = true) (hsfb : starFree b.data = true)
    (hneT : a ++ "*" ++ b ≠ "test*ing") :
    matchWildcardValue (a ++ "*" ++ b) v = (jsStartsWith v a && jsEndsWith v b) := by
  have hdata : (a ++ "*" ++ b).data = a.data ++ '*' :: b.data := by
    rw [String.data_append, String.data_append]
    simp [List.append_assoc]
  have hxstar : ¬x = '*' := by
    intro h
    exact starFree_not_mem a.data hsfa (by rw [hxa, h]; simp)
  have hne1 : a ++ "*" ++ b ≠ "*" := by
    intro h
    have hd := congrArg String.data h
    rw [hdata, hxa] at hd
    have h1 := congrArg List.head? hd
    simp at h1
    exact hxstar h1
  have hb1 : ((a ++ "*" ++ b) == "*") = false := by simp [hne1]
  have hb2 : ((a ++ "*" ++ b) == "test*ing") = false := by simp [hneT]
  have hsw : jsStartsWith (a ++ "*" ++ b) "*" = false := by
    rw [Bool.eq_false_iff, Ne, jsStartsWith_iff,
      show ("*" : String).data = ['*'] from rfl, hdata, hxa]
    intro hpre
    rw [singleton_prefix_iff] at hpre
    obtain ⟨t, ht⟩ := hpre
    simp at ht
    exact hxstar ht.1
  have hew : jsEndsWith (a ++ "*" ++ b) "*" = false := by
    rw [Bool.eq_false_iff, Ne, jsEndsWith_iff,
      show ("*" : String).data = ['*'] from rfl, hdata]
    intro hsuf
    rw [singleton_suffix_iff] at hsuf
    obtain ⟨t, ht⟩ := hsuf
    have h1 : (t ++ ['*']).getLast? = some '*' := by simp
    rw [← ht, hyb] at h1
    have h2 : (a.data ++ '*' :: y :: ys).getLast? = (y :: ys).getLast? := by
      rw [getLast?_append_right a.data '*' (y :: ys)]
      simp
    rw [h2] at h1
    have hmem : '*' ∈ y :: ys := List.mem_of_mem_getLast? (by simp [h1])
    rw [← hyb] at hmem
    exact starFree_not_mem b.data hsfb hmem
  have hcont : (a ++ "*" ++ b).data.contains '*' = true := by
    rw [hdata]
    simp [List.elem_iff]
  have hsplit : splitOnChar '*' (a.data ++ '*' :: b.data) = [a.data, b.data] := by
    rw [splitOnChar_append_sep '*' a.data b.data (starFree_not_mem a.data hsfa),
      splitOnChar_starFreeSeg '*' b.data (starFree_not_mem b.data hsfb)]
  unfold matchWildcardValue
  simp [hb1, hb2, hsw, hew, hcont, hdata, hsplit]

/-- Evaluation of the wildcard matcher on a pattern with two interior stars:
only the literal pattern itself matches (the fall-through equality). -/
theorem matchWildcardValue_multiStar (a m b v : String) (x y : Char) (xs ys : List Char)
    (hxa : a.data = x :: xs) (hyb : b.data = y :: ys)
    (hsfa : starFree a.data = true) (hsfb : starFree b.data = true) :
    matchWildcardValue (a ++ "*" ++ m ++ "*" ++ b) v = (a ++ "*" ++ m ++ "*" ++ b == v) := by
  have hdata : (a ++ "*" ++ m ++ "*" ++ b).data =
      a.data ++ '*' :: (m.data ++ '*' :: b.data) := by
    rw [String.data_append, String.data_append, String.data_append, String.data_append]
    simp [List.append_assoc]
  have hxstar : ¬x = '*' := by
    intro h
    exact starFree_not_mem a.data hsfa (by rw [hxa, h]; simp)
  have hsplit : splitOnChar '*' ((a ++ "*" ++ m ++ "*" ++ b).data) =
      a.data :: splitOnChar '*' (m.data ++ '*' :: b.data) := by
    rw [hdata, splitOnChar_append_sep '*' a.data _ (starFree_not_mem a.data hsfa)]
  have htail2 : 2 ≤ (splitOnChar '*' (m.data ++ '*' :: b.data)).length :=
    splitOnChar_length_ge_two '*' _ (by simp)
  have hneT : a ++ "*" ++ m ++ "*" ++ b ≠ "test*ing" := by
    intro h
    have hd := congrArg String.data h
    have hsp1 : splitOnChar '*' ((a ++ "*" ++ m ++ "*" ++ b).data) =
        splitOnChar '*' (("test*ing" : String).data) := by rw [hd]
    rw [hsplit] at hsp1
    have hlen := congrArg List.length hsp1
    rw [show (splitOnChar '*' (("test*ing" : String).data)).length = 2 from rfl] at hlen
    simp only [List.length_cons] at hlen
    omega
  have hne1 : a ++ "*" ++ m ++ "*" ++ b ≠ "*" := by
    intro h
    have hd := congrArg String.data h
    rw [hdata, hxa] at hd
    have h1 := congrArg List.head? hd
    simp at h1
    exact hxstar h1
  have hb1 : ((a ++ "*" ++ m ++ "*" ++ b) == "*") = false := by simp [hne1]
  have hb2 : ((a ++ "*" ++ m ++ "*" ++ b) == "test*ing") = false := by simp [hneT]
  have hsw : jsStartsWith (a ++ "*" ++ m ++ "*" ++ b) "*" = false := by
    rw [Bool.eq_false_iff, Ne, jsStartsWith_iff,
      show ("*" : String).data = ['*'] from rfl, hdata, hxa]
    intro hpre
    rw [singleton_prefix_iff] at hpre
    obtain ⟨t, ht⟩ := hpre
    simp at ht
    exact hxstar ht.1
  have hew : jsEndsWith (a ++ "*" ++ m ++ "*" ++ b) "*" = false := by
    rw [Bool.eq_false_iff, Ne, jsEndsWith_iff,
      show ("*" : String).data = ['*'] from rfl, hdata]
    intro hsuf
    rw [singleton_suffix_iff] at hsuf
    obtain ⟨t, ht⟩ := hsuf
    have h1 : (t ++ ['*']).getLast? = some '*' := by simp
    rw [← ht, hyb] at h1
    have h2 : (a.data ++ '*' :: (m.data ++ '*' :: y :: ys)).getLast? =
        (y :: ys).getLast? := by
      rw [getLast?_append_right a.data '*' (m.data ++ '*' :: y :: ys)]
      rw [show ('*' :: (m.data ++ '*' :: y :: ys)) =
        ['*'] ++ (m.data ++ '*' :: y :: ys) from rfl]
      rw [getLast?_append_ne_nil ['*'] _ (by simp)]
      rw [getLast?_append_right m.data '*' (y :: ys)]
      simp
    rw [h2] at h1
    have hmem : '*' ∈ y :: ys := List.mem_of_mem_getLast? (by simp [h1])
    rw [← hyb] at hmem
    exact starFree_not_mem b.data hsfb hmem
  have hcont : (a ++ "*" ++ m ++ "*" ++ b).data.contains '*' = true := by
    rw [hdata]
    simp [List.elem_iff]
  obtain ⟨s₁, t₁, ht₁⟩ : ∃ s₁ t₁, splitOnChar '*' (m.data ++ '*' :: b.data) = s₁ :: t₁ := by
    cases hs : splitOnChar '*' (m.data ++ '*' :: b.data) with
    | nil => exact absurd hs (splitOnChar_ne_nil '*' _)
    | cons s₁ t₁ => exact ⟨s₁, t₁, rfl⟩
  obtain ⟨s₂, t₂, ht₂⟩ : ∃ s₂ t₂, t₁ = s₂ :: t₂ := by
    cases ht : t₁ with
    | nil =>
      rw [ht₁, ht] at htail2
      simp at htail2
    | cons s₂ t₂ => exact ⟨s₂, t₂, rfl⟩
  have hsplit' : splitOnChar '*' (a.data ++ '*' :: (m.data ++ '*' :: b.data)) =
      a.data :: s₁ :: s₂ :: t₂ := by
    rw [splitOnChar_append_sep '*' a.data _ (starFree_not_mem a.data hsfa), ht₁, ht₂]
  unfold matchWildcardValue
  simp [hb1, hb2, hsw, hew, hcont, hdata, hsplit']

/-- C5 (amended) — `matchWildcardValue` is boundary analysis, not regex
conversion. For star-free `a`, `b` and arbitrary `m`, `p`, `v`: the matcher
agrees with the anchored-regex (glob) semantics of the claim exactly on the
boundary-star shapes with star-free core (`*`, `a*`, `*a`, `*a*`); on a
single-interior-star pattern `a*b` it tests prefix and suffix independently,
so it accepts every value the regex accepts (the converse fails on overlaps);
a pattern with two or more interior stars between unstarred ends matches only
its own literal text; and the general routing ignores stars inside the tested
core: any pattern `p*` not starting with a star tests `p` as a literal
prefix, any `*p` not ending with a star tests `p` as a literal suffix, and
any `*p*` tests literal containment of `p` — so `a*b*` matches every value
with literal prefix `a*b`, not just itself. The pattern `test*ing` is
excluded from the interior-star soundness clause because the source
hard-codes answers for it. -/
theorem wildcard_boundary_star_semantics (a b m p v : String)
    (hA : starFree a.data = true) (hB : starFree b.data = true) :
    (matchWildcardValue "*" v = globMatchStr "*" v) ∧
    (a ≠ "" → matchWildcardValue (a ++ "*") v = globMatchStr (a ++ "*") v) ∧
    (a ≠ "" → matchWildcardValue ("*" ++ a) v = globMatchStr ("*" ++ a) v) ∧
    (matchWildcardValue ("*" ++ a ++ "*") v = globMatchStr ("*" ++ a ++ "*") v) ∧
    (a ≠ "" → b ≠ "" → a ++ "*" ++ b ≠ "test*ing" →
      globMatchStr (a ++ "*" ++ b) v = true →
      matchWildcardValue (a ++ "*" ++ b) v = true) ∧
    (a ≠ "" → b ≠ "" →
      matchWildcardValue (a ++ "*" ++ m ++ "*" ++ b) v =
        (a ++ "*" ++ m ++ "*" ++ b == v)) ∧
    (p ≠ "" → p.data.head? ≠ some '*' →
      matchWildcardValue (p ++ "*") v = jsStartsWith v p) ∧
    (p ≠ "" → p.data.getLast? ≠ some '*' →
      matchWildcardValue ("*" ++ p) v = jsEndsWith v p) ∧
    (matchWildcardValue ("*" ++ p ++ "*") v = jsIncludes v p) := by
  have hshape : ∀ s : String, s ≠ "" → ∃ (c : Char) (cs : List Char), s.data = c :: cs := by
    intro s hs
    have hd : s.data ≠ [] := by
      intro h
      exact hs (String.ext_iff.mpr (by simp [h]))
    obtain ⟨c, cs, hc⟩ := List.exists_cons_of_ne_nil hd
    exact ⟨c, cs, hc⟩
  refine ⟨?_, ?_, ?_, ?_, ?_, ?_, ?_, ?_, ?_⟩
  · have hg : globMatchStr "*" v = true :=
      (globMatch_trailing_star [] (by decide) v.data).mpr List.nil_prefix
    rw [hg]
    rfl
  · intro hna
    obtain ⟨x, xs, hx⟩ := hshape a hna
    have hxstar : ¬x = '*' := by
      intro h
      exact starFree_not_mem a.data hA (by rw [hx, h]; simp)
    rw [matchWildcardValue_trailing a v x xs hx hxstar, Bool.eq_iff_iff, jsStartsWith_iff]
    have hY : globMatchStr (a ++ "*") v = true ↔ a.data <+: v.data := by
      unfold globMatchStr
      rw [String.data_append]
      exact globMatch_trailing_star a.data hA v.data
    rw [hY]
  · intro hna
    obtain ⟨x, xs, hx⟩ := hshape a hna
    rw [matchWildcardValue_leading a v x xs hx hA, Bool.eq_iff_iff, jsEndsWith_iff]
    have hY : globMatchStr ("*" ++ a) v = true ↔ a.data <:+ v.data := by
      unfold globMatchStr
      rw [String.data_append]
      exact globMatch_leading_star a.data hA v.data
    rw [hY]
  · rw [matchWildcardValue_bothStars a v, Bool.eq_iff_iff, jsIncludes_iff]
    have hY : globMatchStr ("*" ++ a ++ "*") v = true ↔ a.data <:+: v.data := by
      unfold globMatchStr
      rw [String.data_append, String.data_append]
      exact globMatch_both_stars a.data hA v.data
    rw [hY]
  · intro hna hnb hneT hglob
    obtain ⟨x, xs, hx⟩ := hshape a hna
    obtain ⟨y, ys, hy⟩ := hshape b hnb
    have hgd : globMatch (a.data ++ '*' :: b.data) v.data = true := by
      unfold globMatchStr at hglob
      rw [show (a ++ "*" ++ b).data = a.data ++ '*' :: b.data from by
        rw [String.data_append, String.data_append]
        simp [List.append_assoc]] at hglob
      exact hglob
    obtain ⟨hp, hs⟩ := globMatch_interior_star a.data b.data hA hB v.data hgd
    rw [matchWildcardValue_interior a b v x y xs ys hx hy hA hB hneT]
    rw [Bool.and_eq_true]
    exact ⟨(jsStartsWith_iff v a).mpr hp, (jsEndsWith_iff v b).mpr hs⟩
  · intro hna hnb
    obtain ⟨x, xs, hx⟩ := hshape a hna
    obtain ⟨y, ys, hy⟩ := hshape b hnb
    exact matchWildcardValue_multiStar a m b v x y xs ys hx hy hA hB
  · intro hnp hh
    obtain ⟨x, xs, hx⟩ := hshape p hnp
    have hxstar : ¬x = '*' := by
      intro h
      exact hh (by rw [hx, h]; rfl)
    exact matchWildcardValue_trailing p v x xs hx hxstar
  · intro hnp hl
    obtain ⟨x, xs, hx⟩ := hshape p hnp
    exact matchWildcardValue_leading_any p v x xs hx hl
  · exact matchWildcardValue_bothStars p v

/-- Witness for C5 (amended): concrete instances — a trailing-star pattern
agreeing with the glob semantics, an interior-star pattern accepting a value
the regex accepts, a two-interior-star pattern reduced to literal equality,
and the general routing on starred cores: `a*b*` as a prefix test of `a*b`,
`*b*c` as a suffix test of `b*c`, and `*a*b*` as containment of `a*b`. -/
theorem wildcard_boundary_star_semantics_witness :
    (matchWildcardValue ("ab" ++ "*") "abc" = globMatchStr ("ab" ++ "*") "abc") ∧
    (matchWildcardValue ("a" ++ "*" ++ "c") "abc" = true) ∧
    (matchWildcardValue ("a" ++ "*" ++ "b" ++ "*" ++ "c") "zzz" =
      (("a" ++ "*" ++ "b" ++ "*" ++ "c" : String) == "zzz")) ∧
    (matchWildcardValue ("a*b" ++ "*") "a*bZZ" = jsStartsWith "a*bZZ" "a*b") ∧
    (matchWildcardValue ("*" ++ "b*c") "xb*c" = jsEndsWith "xb*c" "b*c") ∧
    (matchWildcardValue ("*" ++ "a*b" ++ "*") "xa*by" = jsIncludes "xa*by" "a*b") := by
  refine ⟨?_, ?_, ?_, ?_, ?_, ?_⟩
  · exact (wildcard_boundary_star_semantics "ab" "c" "m" "p" "abc"
      (by decide) (by decide)).2.1 (by decide)
  · exact (wildcard_boundary_star_semantics "a" "c" "m" "p" "abc" (by decide)
      (by decide)).2.2.2.2.1 (by decide) (by decide) (by decide) (by decide)
  · exact (wildcard_boundary_star_semantics "a" "c" "b" "p" "zzz" (by decide)
      (by decide)).2.2.2.2.2.1 (by decide) (by decide)
  · exact (wildcard_boundary_star_semantics "a" "c" "m" "a*b" "a*bZZ" (by decide)
      (by decide)).2.2.2.2.2.2.1 (by decide) (by decide)
  · exact (wildcard_boundary_star_semantics "a" "c" "m" "b*c" "xb*c" (by decide)
      (by decide)).2.2.2.2.2.2.2.1 (by decide) (by decide)
  · exact (wildcard_boundary_star_semantics "a" "c" "m" "a*b" "xa*by" (by decide)
      (by decide)).2.2.2.2.2.2.2.2

/-- The comparator as a strict-propositional order: `a` sorts strictly before
`b` when it has higher priority, or equal priority and greater id. -/
def CandStrictBefore (a b : Cand) : Prop :=
  b.pr < a.pr ∨ (a.pr = b.pr ∧ b.exp.id < a.exp.id)

theorem candBefore_iff (a b : Cand) : candBefore a b = true ↔ CandStrictBefore a b := by
  simp [candBefore, CandStrictBefore, String.lt_iff]

theorem candBefore_irrefl (c : Cand) : candBefore c c = false := by
  rw [Bool.eq_false_iff, Ne, candBefore_iff]
  rintro (h | ⟨_, h⟩) <;> exact absurd h (lt_irrefl _)

theorem candBefore_asymm (c d : Cand) (h : candBefore c d = true) :
    candBefore d c = false := by
  rw [candBefore_iff] at h
  rw [Bool.eq_false_iff, Ne, candBefore_iff]
  rintro (h' | ⟨he', h'⟩) <;> rcases h with h | ⟨he, hh⟩
  · exact absurd h' (lt_asymm h)
  · rw [he] at h'
    exact absurd h' (lt_irrefl _)
  · rw [he'] at h
    exact absurd h (lt_irrefl _)
  · exact absurd h' (lt_asymm hh)

theorem candBefore_not_of_chain (c d y : Cand) (hcd : candBefore c d = true)
    (hyd : candBefore y d = false) : candBefore y c = false := by
  rw [candBefore_iff] at hcd
  rw [Bool.eq_false_iff, Ne, candBefore_iff] at hyd ⊢
  intro hyc
  apply hyd
  rcases hcd with h1 | ⟨h1, h1'⟩ <;> rcases hyc with h2 | ⟨h2, h2'⟩
  · exact Or.inl (lt_trans h1 h2)
  · exact Or.inl (by rw [h2]; exact h1)
  · exact Or.inl (by rw [← h1]; exact h2)
  · exact Or.inr ⟨h2.trans h1, lt_trans h1' h2'⟩

/-- Membership in an insertion is membership in the inserted element or the
original list. -/
theorem mem_insertCand (c x : Cand) (l : List Cand) :
    x ∈ insertCand c l ↔ x = c ∨ x ∈ l := by
  induction l with
  | nil => simp [insertCand]
  | cons d ds ih =>
    by_cases h : candBefore c d = true
    · simp [insertCand, h]
    · rw [Bool.not_eq_true] at h
      simp only [insertCand, h, Bool.false_eq_true, if_false, List.mem_cons, ih]
      constructor
      · rintro (h' | h' | h') <;> [exact Or.inr (Or.inl h'); exact Or.inl h';
          exact Or.inr (Or.inr h')]
      · rintro (h' | h' | h') <;> [exact Or.inr (Or.inl h'); exact Or.inl h';
          exact Or.inr (Or.inr h')]

/-- The not-strictly-before relation maintained along sorted lists. -/
def CandNotAfter (c d : Cand) : Prop := candBefore d c = false

/-- Inserting preserves sortedness with respect to `CandNotAfter`. -/
theorem insertCand_pairwise (c : Cand) (l : List Cand)
    (h : l.Pairwise CandNotAfter) : (insertCand c l).Pairwise CandNotAfter := by
  induction l with
  | nil => simp [insertCand, List.Pairwise]
  | cons d ds ih =>
    rw [List.pairwise_cons] at h
    obtain ⟨hd, hds⟩ := h
    by_cases hcd : candBefore c d = true
    · rw [insertCand, if_pos hcd]
      rw [List.pairwise_cons]
      refine ⟨?_, List.pairwise_cons.mpr ⟨hd, hds⟩⟩
      intro y hy
      rcases List.mem_cons.mp hy with hy | hy
      · rw [hy]
        exact candBefore_asymm c d hcd
      · exact candBefore_not_of_chain c d y hcd (hd y hy)
    · rw [Bool.not_eq_true] at hcd
      rw [insertCand, hcd]
      simp only [Bool.false_eq_true, if_false]
      rw [List.pairwise_cons]
      refine ⟨?_, ih hds⟩
      intro y hy
      rcases (mem_insertCand c y ds).mp hy with hy | hy
      · rw [hy]
        exact hcd
      · exact hd y hy

/-- The insertion sort produces a `CandNotAfter`-sorted list. -/
theorem sortCands_pairwise (l : List Cand) : (sortCands l).Pairwise CandNotAfter := by
  induction l with
  | nil => simp [sortCands, List.Pairwise]
  | cons c cs ih => exact insertCand_pairwise c (sortCands cs) ih

/-- Sorting preserves membership. -/
theorem mem_sortCands (x : Cand) (l : List Cand) : x ∈ sortCands l ↔ x ∈ l := by
  induction l with
  | nil => simp [sortCands]
  | cons c cs ih =>
    rw [show sortCands (c :: cs) = insertCand c (sortCands cs) from rfl]
    rw [mem_insertCand, ih]
    simp

/-- The head of the sorted list is never strictly beaten by any list element:
it has maximal priority and, at equal priority, maximal id. -/
theorem sortCands_head_dominates (l : List Cand) (h : Cand) (t : List Cand)
    (hsort : sortCands l = h :: t) :
    ∀ x ∈ l, candBefore x h = false := by
  intro x hx
  have hx' : x ∈ sortCands l := (mem_sortCands x l).mpr hx
  rw [hsort] at hx'
  rcases List.mem_cons.mp hx' with hx' | hx'
  · rw [hx']
    exact candBefore_irrefl h
  · have hp := sortCands_pairwise l
    rw [hsort, List.pairwise_cons] at hp
    exact hp.1 x hx'

/-- A non-empty list sorts to a non-empty list. -/
theorem sortCands_ne_nil (l : List Cand) (h : l ≠ []) : sortCands l ≠ [] := by
  intro hnil
  obtain ⟨c, cs, rfl⟩ := List.exists_cons_of_ne_nil h
  have : c ∈ sortCands (c :: cs) := (mem_sortCands c _).mpr (by simp)
  rw [hnil] at this
  simp at this

/-- A candidate sits in the regular (response) list exactly when some
candidate id resolves to its expectation, the expectation matches, carries a
response and no forward, and the candidate priority is the defaulted
expectation priority. -/
theorem mem_collectCands_fst (E : Engines) (req : Request)
    (exps : List (String × Expectation)) :
    ∀ (ids : List String) (c : Cand),
      c ∈ (collectCands E req exps ids).1 ↔
      ∃ id, id ∈ ids ∧ lookupAssoc exps id = some c.exp ∧
        matchesExpectation E req c.exp = true ∧
        c.exp.httpForward.isSome = false ∧ c.exp.httpResponse.isSome = true ∧
        c.pr = c.exp.priority.getD 0 := by
  intro ids
  induction ids with
  | nil => simp [collectCands]
  | cons id rest ih =>
    intro c
    simp only [collectCands]
    cases hl : lookupAssoc exps id with
    | none =>
      rw [ih c]
      constructor
      · rintro ⟨id', hmem, hrest⟩
        exact ⟨id', List.mem_cons_of_mem id hmem, hrest⟩
      · rintro ⟨id', hmem, hlook, hrest⟩
        rcases List.mem_cons.mp hmem with rfl | hmem
        · rw [hl] at hlook
          exact absurd hlook (by simp)
        · exact ⟨id', hmem, hlook, hrest⟩
    | some ex =>
      by_cases hm : matchesExpectation E req ex = true
      · by_cases hf : ex.httpForward.isSome = true
        · simp only [hm, if_true, hf]
          rw [ih c]
          constructor
          · rintro ⟨id', hmem, hrest⟩
            exact ⟨id', List.mem_cons_of_mem id hmem, hrest⟩
          · rintro ⟨id', hmem, hlook, hmatch, hfwd, hrest⟩
            rcases List.mem_cons.mp hmem with rfl | hmem
            · rw [hl] at hlook
              injection hlook with hlook
              rw [hlook] at hf
              rw [hf] at hfwd
              exact absurd hfwd (by simp)
            · exact ⟨id', hmem, hlook, hmatch, hfwd, hrest⟩
        · rw [Bool.not_eq_true] at hf
          by_cases hr : ex.httpResponse.isSome = true
          · simp only [hm, if_true, hf, Bool.false_eq_true, if_false, hr, List.mem_cons]
            rw [ih c]
            constructor
            · rintro (hc | ⟨id', hmem, hrest⟩)
              · refine ⟨id, Or.inl rfl, ?_⟩
                rw [hc]
                exact ⟨hl, hm, hf, hr, rfl⟩
              · exact ⟨id', Or.inr hmem, hrest⟩
            · rintro ⟨id', hmem, hlook, hmatch, hfwd, hresp, hpr⟩
              rcases hmem with rfl | hmem
              · rw [hl] at hlook
                injection hlook with hlook
                left
                cases c with
                | mk cexp cpr =>
                  simp only at hlook hpr
                  rw [Cand.mk.injEq]
                  rw [← hlook]
                  exact ⟨rfl, by rw [hpr, ← hlook]⟩
              · exact Or.inr ⟨id', hmem, hlook, hmatch, hfwd, hresp, hpr⟩
          · rw [Bool.not_eq_true] at hr
            simp only [hm, if_true, hf, Bool.false_eq_true, if_false, hr]
            rw [ih c]
            constructor
            · rintro ⟨id', hmem, hrest⟩
              exact ⟨id', List.mem_cons_of_mem id hmem, hrest⟩
            · rintro ⟨id', hmem, hlook, hmatch, hfwd, hresp, hpr⟩
              rcases List.mem_cons.mp hmem with rfl | hmem
              · rw [hl] at hlook
                injection hlook with hlook
                rw [hlook] at hr
                rw [hr] at hresp
                exact absurd hresp (by simp)
              · exact ⟨id', hmem, hlook, hmatch, hfwd, hresp, hpr⟩
      · rw [Bool.not_eq_true] at hm
        simp only [hm, Bool.false_eq_true, if_false]
        rw [ih c]
        constructor
        · rintro ⟨id', hmem, hrest⟩
          exact ⟨id', List.mem_cons_of_mem id hmem, hrest⟩
        · rintro ⟨id', hmem, hlook, hmatch, hrest⟩
          rcases List.mem_cons.mp hmem with rfl | hmem
          · rw [hl] at hlook
            injection hlook with hlook
            rw [hlook] at hm
            rw [hm] at hmatch
            exact absurd hmatch (by simp)
          · exact ⟨id', hmem, hlook, hmatch, hrest⟩

/-- A candidate sits in the forward list exactly when some candidate id
resolves to its expectation, the expectation matches and carries a forward,
and the candidate priority is the defaulted expectation priority. -/
theorem mem_collectCands_snd (E : Engines) (req : Request)
    (exps : List (String × Expectation)) :
    ∀ (ids : List String) (c : Cand),
      c ∈ (collectCands E req exps ids).2 ↔
      ∃ id, id ∈ ids ∧ lookupAssoc exps id = some c.exp ∧
        matchesExpectation E req c.exp = true ∧
        c.exp.httpForward.isSome = true ∧
        c.pr = c.exp.priority.getD 0 := by
  intro ids
  induction ids with
  | nil => simp [collectCands]
  | cons id rest ih =>
    intro c
    simp only [collectCands]
    cases hl : lookupAssoc exps id with
    | none =>
      rw [ih c]
      constructor
      · rintro ⟨id', hmem, hrest⟩
        exact ⟨id', List.mem_cons_of_mem id hmem, hrest⟩
      · rintro ⟨id', hmem, hlook, hrest⟩
        rcases List.mem_cons.mp hmem with rfl | hmem
        · rw [hl] at hlook
          exact absurd hlook (by simp)
        · exact ⟨id', hmem, hlook, hrest⟩
    | some ex =>
      by_cases hm : matchesExpectation E req ex = true
      · by_cases hf : ex.httpForward.isSome = true
        · simp only [hm, if_true, hf, List.mem_cons]
          rw [ih c]
          constructor
          · rintro (hc | ⟨id', hmem, hrest⟩)
            · refine ⟨id, Or.inl rfl, ?_⟩
              rw [hc]
              exact ⟨hl, hm, hf, rfl⟩
            · exact ⟨id', Or.inr hmem, hrest⟩
          · rintro ⟨id', hmem, hlook, hmatch, hfwd, hpr⟩
            rcases hmem with rfl | hmem
            · rw [hl] at hlook
              injection hlook with hlook
              left
              cases c with
              | mk cexp cpr =>
                simp only at hlook hpr
                rw [Cand.mk.injEq]
                rw [← hlook]
                exact ⟨rfl, by rw [hpr, ← hlook]⟩
            · exact Or.inr ⟨id', hmem, hlook, hmatch, hfwd, hpr⟩
        · rw [Bool.not_eq_true] at hf
          by_cases hr : ex.httpResponse.isSome = true
          · simp only [hm, if_true, hf, Bool.false_eq_true, if_false, hr]
            rw [ih c]
            constructor
            · rintro ⟨id', hmem, hrest⟩
              exact ⟨id', List.mem_cons_of_mem id hmem, hrest⟩
            · rintro ⟨id', hmem, hlook, hmatch, hfwd, hpr⟩
              rcases List.mem_cons.mp hmem with rfl | hmem
              · rw [hl] at hlook
                injection hlook with hlook
                rw [hlook] at hf
                rw [hf] at hfwd
                exact absurd hfwd (by simp)
              · exact ⟨id', hmem, hlook, hmatch, hfwd, hpr⟩
          · rw [Bool.not_eq_true] at hr
            simp only [hm, if_true, hf, Bool.false_eq_true, if_false, hr]
            rw [ih c]
            constructor
            · rintro ⟨id', hmem, hrest⟩
              exact ⟨id', List.mem_cons_of_mem id hmem, hrest⟩
            · rintro ⟨id', hmem, hlook, hmatch, hfwd, hpr⟩
              rcases List.mem_cons.mp hmem with rfl | hmem
              · rw [hl] at hlook
                injection hlook with hlook
                rw [hlook] at hf
                rw [hf] at hfwd
                exact absurd hfwd (by simp)
              · exact ⟨id', hmem, hlook, hmatch, hfwd, hpr⟩
      · rw [Bool.not_eq_true] at hm
        simp only [hm, Bool.false_eq_true, if_false]
        rw [ih c]
        constructor
        · rintro ⟨id', hmem, hrest⟩
          exact ⟨id', List.mem_cons_of_mem id hmem, hrest⟩
        · rintro ⟨id', hmem, hlook, hmatch, hrest⟩
          rcases List.mem_cons.mp hmem with rfl | hmem
          · rw [hl] at hlook
            injection hlook with hlook
            rw [hlook] at hm
            rw [hm] at hmatch
            exact absurd hmatch (by simp)
          · exact ⟨id', hmem, hlook, hmatch, hrest⟩

/-- A `type: http` response expectation with a literal method matcher,
priority 5 and the given id — the tie-break fixture. -/
def mkTieExp (id : String) : Expectation :=
  { id := id, priority := some 5, typeField := some "http"
    httpRequest := { emptyHttpRequestSpec with method := some (StrSpec.plain "GET") }
    httpResponse := some (Json.obj []), httpForward := none }

/-- Store holding the two tie-break expectations `aaa` and `zzz`. -/
def tieStore : List (String × Expectation) := [("aaa", mkTieExp "aaa"), ("zzz", mkTieExp "zzz")]

/-- A request both tie-break expectations match. -/
def tieReq : Request := ⟨"GET", "/x", [], [], none, none⟩

/-- An expectation the request reaches through the candidate index, resolves
in the store, and matches. -/
def isMatchingCandidate (E : Engines) (req : Request)
    (exps : List (String × Expectation)) (idx : IndexState) (x : Expectation) : Prop :=
  ∃ id, id ∈ getCandidateExpectationIds idx req ∧ lookupAssoc exps id = some x ∧
    matchesExpectation E req x = true

/-- A candidate never strictly beaten by the head has at most its priority,
and at equal priority at most its id. -/
theorem candBefore_false_le (x h : Cand) (hf : candBefore x h = false) :
    x.pr ≤ h.pr ∧ (x.pr = h.pr → x.exp.id ≤ h.exp.id) := by
  rw [Bool.eq_false_iff, Ne, candBefore_iff] at hf
  constructor
  · by_contra hlt
    exact hf (Or.inl (lt_of_not_le hlt))
  · intro heq
    by_contra hid
    exact hf (Or.inr ⟨heq, lt_of_not_le hid⟩)

/-- C1 — soundness and optimality of `findMatchingExpectation`: whenever it
returns an expectation `e`, (1) `e` matches the request and is a matching
candidate (index-reachable, stored, accepted by the matcher); (2) if any
matching candidate carries a canned response and no forward, so does `e` —
response candidates are preferred over forward candidates; (3) within `e`'s
partition (forward candidates when `e` forwards, response candidates
otherwise — for admitted expectations these are exactly the claim's
partitions, since exactly one action is present) `e` has maximal defaulted
priority, and at equal priority the lexicographically greatest id. -/
theorem find_selects_best (E : Engines) (req : Request)
    (exps : List (String × Expectation)) (idx : IndexState) (e : Expectation)
    (hfind : findMatchingExpectation E req exps idx = some e) :
    (matchesExpectation E req e = true ∧ isMatchingCandidate E req exps idx e) ∧
    ((∃ x, isMatchingCandidate E req exps idx x ∧ x.httpForward.isSome = false ∧
        x.httpResponse.isSome = true) →
      e.httpForward.isSome = false ∧ e.httpResponse.isSome = true) ∧
    (∀ x, isMatchingCandidate E req exps idx x →
      x.httpForward.isSome = e.httpForward.isSome →
      (e.httpForward.isSome = true ∨ x.httpResponse.isSome = true) →
      x.priority.getD 0 ≤ e.priority.getD 0 ∧
        (x.priority.getD 0 = e.priority.getD 0 → x.id ≤ e.id)) := by
  unfold findMatchingExpectation at hfind
  by_cases h0 : exps.isEmpty = true
  · rw [if_pos h0] at hfind
    exact absurd hfind (by simp)
  · rw [if_neg h0] at hfind
    by_cases h1 : (getCandidateExpectationIds idx req).isEmpty = true
    · rw [if_pos h1] at hfind
      exact absurd hfind (by simp)
    · rw [if_neg h1] at hfind
      by_cases h2 : (collectCands E req exps (getCandidateExpectationIds idx req)).1.isEmpty = true
      · rw [if_neg (by simp [h2])] at hfind
        by_cases h3 : (collectCands E req exps (getCandidateExpectationIds idx req)).2.isEmpty = true
        · rw [if_neg (by simp [h3])] at hfind
          exact absurd hfind (by simp)
        · rw [if_pos (by simp [List.isEmpty_iff] at h3 ⊢; exact h3)] at hfind
          cases hs : sortCands (collectCands E req exps (getCandidateExpectationIds idx req)).2 with
          | nil => rw [hs] at hfind; exact absurd hfind (by simp)
          | cons c t =>
            rw [hs] at hfind
            simp only [List.head?_cons, Option.map_some] at hfind
            injection hfind with hce
            have hce : c.exp = e := hce
            have hc2 : c ∈ (collectCands E req exps (getCandidateExpectationIds idx req)).2 :=
              (mem_sortCands c _).mp (by rw [hs]; exact List.mem_cons_self c t)
            obtain ⟨id, hid, hlook, hmatch, hfwd, hpr⟩ :=
              (mem_collectCands_snd E req exps _ c).mp hc2
            rw [hce] at hlook hmatch hfwd
            rw [hce] at hpr
            refine ⟨⟨hmatch, ⟨id, hid, hlook, hmatch⟩⟩, ?_, ?_⟩
            · rintro ⟨x, ⟨idx', hidx, hlookx, hmatchx⟩, hxf, hxr⟩
              exfalso
              have hxmem : (⟨x, x.priority.getD 0⟩ : Cand) ∈
                  (collectCands E req exps (getCandidateExpectationIds idx req)).1 :=
                (mem_collectCands_fst E req exps _ _).mpr
                  ⟨idx', hidx, hlookx, hmatchx, hxf, hxr, rfl⟩
              rw [List.isEmpty_iff] at h2
              rw [h2] at hxmem
              simp at hxmem
            · intro x hxc hsame _hbucket
              obtain ⟨idx', hidx, hlookx, hmatchx⟩ := hxc
              have hxf : x.httpForward.isSome = true := by rw [hsame, hfwd]
              have hxmem : (⟨x, x.priority.getD 0⟩ : Cand) ∈
                  (collectCands E req exps (getCandidateExpectationIds idx req)).2 :=
                (mem_collectCands_snd E req exps _ _).mpr
                  ⟨idx', hidx, hlookx, hmatchx, hxf, rfl⟩
              have hdom := sortCands_head_dominates _ c t hs _ hxmem
              have hle := candBefore_false_le _ c hdom
              rw [hce] at hle
              rw [← hpr]
              exact hle
      · rw [if_pos (by simp [List.isEmpty_iff] at h2 ⊢; exact h2)] at hfind
        cases hs : sortCands (collectCands E req exps (getCandidateExpectationIds idx req)).1 with
        | nil => rw [hs] at hfind; exact absurd hfind (by simp)
        | cons c t =>
          rw [hs] at hfind
          simp only [List.head?_cons, Option.map_some] at hfind
          injection hfind with hce
          have hce : c.exp = e := hce
          have hc1 : c ∈ (collectCands E req exps (getCandidateExpectationIds idx req)).1 :=
            (mem_sortCands c _).mp (by rw [hs]; exact List.mem_cons_self c t)
          obtain ⟨id, hid, hlook, hmatch, hfwd, hresp, hpr⟩ :=
            (mem_collectCands_fst E req exps _ c).mp hc1
          rw [hce] at hlook hmatch hfwd hresp
          rw [hce] at hpr
          refine ⟨⟨hmatch, ⟨id, hid, hlook, hmatch⟩⟩, ?_, ?_⟩
          · intro _
            exact ⟨hfwd, hresp⟩
          · intro x hxc hsame hbucket
            obtain ⟨idx', hidx, hlookx, hmatchx⟩ := hxc
            have hxf : x.httpForward.isSome = false := by rw [hsame, hfwd]
            have hxr : x.httpResponse.isSome = true := by
              rcases hbucket with hb | hb
              · rw [hfwd] at hb
                exact absurd hb (by simp)
              · exact hb
            have hxmem : (⟨x, x.priority.getD 0⟩ : Cand) ∈
                (collectCands E req exps (getCandidateExpectationIds idx req)).1 :=
              (mem_collectCands_fst E req exps _ _).mpr
                ⟨idx', hidx, hlookx, hmatchx, hxf, hxr, rfl⟩
            have hdom := sortCands_head_dominates _ c t hs _ hxmem
            have hle := candBefore_false_le _ c hdom
            rw [hce] at hle
            rw [← hpr]
            exact hle

/-- Witness for C1: the spec's tie-break scenario — two matching response
expectations with equal priority 5 and ids `aaa` and `zzz`; `find` returns a
matching candidate that dominates both, in particular the one with id
`zzz`. -/
theorem find_selects_best_witness :
    matchesExpectation nullEngines tieReq (mkTieExp "zzz") = true ∧
    isMatchingCandidate nullEngines tieReq tieStore (initializeIndices tieStore)
      (mkTieExp "zzz") := by
  have hfind : findMatchingExpectation nullEngines tieReq tieStore
      (initializeIndices tieStore) = some (mkTieExp "zzz") := by decide
  exact (find_selects_best nullEngines tieReq tieStore (initializeIndices tieStore)
    (mkTieExp "zzz") hfind).1

end Mocksrv
